import Mathlib

/-!
Shallow embedding of the `cuckoo` package (a cuckoo filter in Go) and proofs
about it.  Machine integers are modelled as `Nat`, with explicit `% 2 ^ w`
truncation exactly where the Go code can overflow or casts narrow a value.
Buckets are stored, as in the source, through a fixed-width word store via a
bucket encoding layer.  Randomness used by the eviction loop is passed in
explicitly as a stream of values standing for successive `rand.Int()` results.
-/

namespace Cuckoo

/-- Modelled from the spec: the external bit-array collaborator
(`github.com/bradenaw/bitarray`, not among the sources).  Per the spec's
contract it is a fixed count of fixed-width words supporting
`New(slotCount, bitsPerSlot)`, `Get(index)`, `Set(index, bits)`, `Len()` and a
word-width accessor (`K`). -/
structure BitStore where
  data : List Nat
  k : Nat
deriving Repr, DecidableEq

def BitStore.new (n k : Nat) : BitStore :=
  { data := List.replicate n 0, k := k }

def BitStore.get (s : BitStore) (i : Nat) : Nat :=
  s.data.getD i 0

def BitStore.set (s : BitStore) (i : Nat) (v : Nat) : BitStore :=
  { s with data := s.data.set i v }

def BitStore.len (s : BitStore) : Nat :=
  s.data.length

/-- `Result` of a membership query (source: `type Result byte`). -/
inductive Result where
  | No
  | Maybe
deriving Repr, DecidableEq

/-- A bucket: a fixed array of 8 fingerprint slots of which the first `l` are
in use (source: `type bucket struct { entries [8]fingerprint; l int }`).
`entries` is kept as a length-8 list of fingerprints (`0` = empty slot). -/
structure bucket where
  entries : List Nat
  l : Nat
deriving Repr, DecidableEq

/-- The multiset of slot values held by the bucket (its first `l` entries).
Slot order inside a bucket carries no meaning in the source. -/
def bucket.content (b : bucket) : Multiset Nat :=
  (b.entries.take b.l : List Nat)

/-- Source `bucket.contains`: scans entries `0 ≤ i < l` for `f`. -/
def bucket.containsF (b : bucket) (f : Nat) : Bool :=
  (b.entries.take b.l).any (fun e => e == f)

/-- Source `bucket.hasEmpty`: scans entries `0 ≤ i < l` for a `0` slot. -/
def bucket.hasEmpty (b : bucket) : Bool :=
  (b.entries.take b.l).any (fun e => e == 0)

/-- Helper for `bucket.add`: write `f` over the first zero among the first
`n` slots, leaving everything else unchanged (the Go loop returns at the
first hit). -/
def addAux (f : Nat) : Nat → List Nat → List Nat
  | _, [] => []
  | 0, es => es
  | n + 1, e :: es => if e == 0 then f :: es else e :: addAux f n es

/-- Source `bucket.add`: place one instance of `f` in the first empty slot
among the first `l`, if any. -/
def bucket.add (b : bucket) (f : Nat) : bucket :=
  { b with entries := addAux f b.l b.entries }

/-- Helper for `bucket.delete`: zero every slot equal to `f` among the first
`n` slots (the Go loop has no early return, so all matches are cleared). -/
def deleteAux (f : Nat) : Nat → List Nat → List Nat
  | _, [] => []
  | 0, es => es
  | n + 1, e :: es => (if e == f then 0 else e) :: deleteAux f n es

/-- Source `bucket.delete`. -/
def bucket.delete (b : bucket) (f : Nat) : bucket :=
  { b with entries := deleteAux f b.l b.entries }

/-- Modelled from the spec: the two precomputed lookup tables
(`lookupFingerprintsToBits` / `lookupBitsToFingerprints`), whose construction
code is not among the sources.  Per the spec they are built by enumerating all
non-decreasing 4-tuples of 4-bit values in a fixed generation order and
assigning sequential codes; this list is that enumeration (each tuple packed
big-endian into 16 bits, as the encoder packs nibbles). -/
def canonicalBuckets : List Nat :=
  (List.range 16).flatMap (fun a =>
    (List.range' a (16 - a)).flatMap (fun b =>
      (List.range' b (16 - b)).flatMap (fun c =>
        (List.range' c (16 - c)).map (fun d =>
          (a <<< 12) ||| (b <<< 8) ||| (c <<< 4) ||| d))))

/-- Modelled from the spec: forward lookup table, canonical sorted nibble
4-tuple (packed in 16 bits) to sequential 12-bit code. -/
def lookupFingerprintsToBits (p : Nat) : Nat :=
  canonicalBuckets.indexOf p

/-- Modelled from the spec: inverse lookup table, 12-bit code back to the
packed canonical nibble 4-tuple. -/
def lookupBitsToFingerprints (c : Nat) : Nat :=
  canonicalBuckets.getD c 0

/-- Source `directBucketEncoding`: concatenates the `b` fingerprints of `f`
bits each. -/
structure directBucketEncoding where
  f : Nat
  b : Nat
deriving Repr, DecidableEq

def directBucketEncoding.encode (e : directBucketEncoding) (bk : bucket) : Nat :=
  (List.range e.b).foldl (fun result i => result ||| (bk.entries.getD i 0) <<< (i * e.f)) 0

def directBucketEncoding.decode (e : directBucketEncoding) (x : Nat) : bucket :=
  { entries := (List.range 8).map (fun i =>
      if i < e.b then (x >>> (i * e.f)) &&& (2 ^ e.f - 1) else 0),
    l := e.b }

def directBucketEncoding.size (e : directBucketEncoding) : Nat :=
  e.f * e.b

/-- Source `packedBucketEncoding`: packed encoding for buckets of size 4 with
fingerprints of `f ≥ 4` bits. -/
structure packedBucketEncoding where
  f : Nat
deriving Repr, DecidableEq

def packedBucketEncoding.size (e : packedBucketEncoding) : Nat :=
  12 + (e.f - 4) * 4

/-- One conditional adjacent swap of `sortBucketByLower4`'s bubble sort,
comparing the low 4 bits of slots `j` and `j+1`. -/
def casLower4 (j : Nat) (es : List Nat) : List Nat :=
  if (es.getD (j + 1) 0) &&& 0xF < (es.getD j 0) &&& 0xF then
    (es.set j (es.getD (j + 1) 0)).set (j + 1) (es.getD j 0)
  else es

/-- Source `packedBucketEncoding.sortBucketByLower4`: bubble sort of the four
entries by their low 4 bits (outer `i = 3, 2, 1`, inner `j = 0 .. i-1`). -/
def sortBucketByLower4 (b : bucket) : bucket :=
  { b with entries := casLower4 0 (casLower4 1 (casLower4 0 (casLower4 2 (casLower4 1 (casLower4 0 b.entries))))) }

def packedBucketEncoding.encode (e : packedBucketEncoding) (bk : bucket) : Nat :=
  let b := sortBucketByLower4 bk
  let packed := (List.range 4).foldl
    (fun p i => p ||| ((b.entries.getD i 0) &&& 0xF) <<< (12 - 4 * i)) 0
  let result := (List.range 4).foldl
    (fun r i => r ||| ((b.entries.getD i 0) >>> 4) <<< ((e.f - 4) * i)) 0
  result ||| (lookupFingerprintsToBits packed) <<< (e.size - 12)

def packedBucketEncoding.decode (e : packedBucketEncoding) (x : Nat) : bucket :=
  let packed := lookupBitsToFingerprints ((x >>> (e.size - 12)) % 65536)
  { entries := (List.range 8).map (fun i =>
      if i < 4 then
        ((packed >>> (12 - 4 * i)) &&& 0xF) ||| (((x >>> ((e.f - 4) * i)) &&& (2 ^ (e.f - 4) - 1)) <<< 4)
      else 0),
    l := 4 }

/-- The `bucketEncoding` interface: the two strategies the source dispatches
between. -/
inductive bucketEncoding where
  | direct : directBucketEncoding → bucketEncoding
  | packed : packedBucketEncoding → bucketEncoding
deriving Repr, DecidableEq

def bucketEncoding.encode : bucketEncoding → bucket → Nat
  | .direct e, bk => e.encode bk
  | .packed e, bk => e.encode bk

def bucketEncoding.decode : bucketEncoding → Nat → bucket
  | .direct e, x => e.decode x
  | .packed e, x => e.decode x

def bucketEncoding.size : bucketEncoding → Nat
  | .direct e => e.size
  | .packed e => e.size

/-- The bucket capacity an encoding works with (`e.b` for direct, `4` for
packed); equals the `l` field of every decoded bucket. -/
def bucketEncoding.cap : bucketEncoding → Nat
  | .direct e => e.b
  | .packed _ => 4

/-- 64-bit FNV-1a over a byte sequence (source: `hash/fnv`, `New64a`).
The multiplication is truncated to 64 bits as in the Go `uint64`. -/
def fnv64a (xs : List Nat) : Nat :=
  xs.foldl (fun h b => ((h ^^^ (b % 256)) * 1099511628211) % 2 ^ 64) 14695981039346656037

/-- Source `Filter`. -/
structure Filter where
  inner : BitStore
  bucketEncoding : bucketEncoding
  count : Int
  overflowed : Bool
  f : Nat
deriving Repr, DecidableEq

def Filter.SizeBytes (fl : Filter) : Nat :=
  fl.inner.len * fl.inner.k

def Filter.nBuckets (fl : Filter) : Nat :=
  fl.inner.len

def Filter.Overflowed (fl : Filter) : Bool :=
  fl.overflowed

def Filter.Count (fl : Filter) : Int :=
  fl.count

def Filter.hashItem (_fl : Filter) (x : List Nat) : Nat :=
  fnv64a x

/-- Source `Filter.hashFingerprint`: FNV-1a of the fingerprint's two bytes,
high byte first. -/
def Filter.hashFingerprint (_fl : Filter) (x : Nat) : Nat :=
  fnv64a [(x >>> 8) % 256, x % 256]

/-- The loop of `Filter.hashToFingerprint`: scan the `f`-bit window of `hash`
at `shift`, stepping `shift` down by `f` while it stays positive.  `fuel`
bounds the recursion; `32` suffices for every `f ≥ 2` since the Go loop runs
at most `31` iterations. -/
def fingerprintLoop (fw hash mask : Nat) : Nat → Nat → Nat
  | _shift, 0 => 1
  | shift, fuel + 1 =>
    if 0 < shift then
      if (hash >>> shift) &&& mask ≠ 0 then (hash >>> shift) &&& mask
      else fingerprintLoop fw hash mask (shift - fw) fuel
    else 1

def Filter.hashToFingerprint (fl : Filter) (hash : Nat) : Nat :=
  fingerprintLoop fl.f hash ((1 <<< fl.f) - 1) (64 - fl.f) 32

/-- Source `Filter.otherIdx`. -/
def Filter.otherIdx (fl : Filter) (f i1 : Nat) : Nat :=
  (i1 ^^^ fl.hashFingerprint f) % fl.nBuckets

/-- Source `Filter.itemToIdxs`: fingerprint and the two candidate bucket
indices of an item. -/
def Filter.itemToIdxs (fl : Filter) (x : List Nat) : Nat × Nat × Nat :=
  let h := fl.hashItem x
  let f := fl.hashToFingerprint h
  let i1 := h % fl.nBuckets
  (f, i1, fl.otherIdx f i1)

def Filter.getBucket (fl : Filter) (i : Nat) : bucket :=
  fl.bucketEncoding.decode (fl.inner.get i)

def Filter.setBucket (fl : Filter) (i : Nat) (b : bucket) : Filter :=
  { fl with inner := fl.inner.set i (fl.bucketEncoding.encode b) }

/-- The eviction ("kicking") loop of `Filter.Add`.  `fp` is the fingerprint
currently in hand, `i` the bucket it is being placed into, `rnd` the stream of
`rand.Int()` values, and the final argument the remaining kick budget
(`maxNumKicks = 500` at the first call). -/
def Filter.kickLoop (fl : Filter) (fp i : Nat) (rnd : List Nat) : Nat → Filter
  | 0 => { fl with overflowed := true }
  | n + 1 =>
    let b := fl.getBucket i
    let entry := rnd.getD 0 0 % b.l
    let evicted := b.entries.getD entry 0
    let fl2 := fl.setBucket i { b with entries := b.entries.set entry fp }
    let i2 := fl2.otherIdx evicted i
    let b2 := fl2.getBucket i2
    if b2.hasEmpty then fl2.setBucket i2 (b2.add evicted)
    else fl2.kickLoop evicted i2 (rnd.drop 1) n

/-- Source `Filter.Add`. -/
def Filter.Add (fl0 : Filter) (x : List Nat) (rnd : List Nat) : Filter :=
  let fl := { fl0 with count := fl0.count + 1 }
  if fl.overflowed then fl
  else
    let t := fl.itemToIdxs x
    let f := t.1
    let i1 := t.2.1
    let i2 := t.2.2
    let b1 := fl.getBucket i1
    if b1.hasEmpty then fl.setBucket i1 (b1.add f)
    else
      let b2 := fl.getBucket i2
      if b2.hasEmpty then fl.setBucket i2 (b2.add f)
      else
        let i := if rnd.getD 0 0 % 2 = 0 then i1 else i2
        Filter.kickLoop fl f i (rnd.drop 1) 500

/-- Source `Filter.Delete`.  The boolean is `true` when the Go code panics
with "item not previously inserted" (the spec's `ItemNotFound`); the returned
filter is the object state at that point (the count was already decremented). -/
def Filter.Delete (fl0 : Filter) (x : List Nat) : Filter × Bool :=
  let fl := { fl0 with count := fl0.count - 1 }
  if fl.overflowed then (fl, false)
  else
    let t := fl.itemToIdxs x
    let f := t.1
    let i1 := t.2.1
    let i2 := t.2.2
    let b1 := fl.getBucket i1
    if b1.containsF f then (fl.setBucket i1 (b1.delete f), false)
    else
      let b2 := fl.getBucket i2
      if b2.containsF f then (fl.setBucket i2 (b2.delete f), false)
      else (fl, true)

/-- Source `Filter.Contains`. -/
def Filter.Contains (fl : Filter) (x : List Nat) : Result :=
  if fl.overflowed then .Maybe
  else
    let t := fl.itemToIdxs x
    let f := t.1
    let i1 := t.2.1
    let i2 := t.2.2
    if (fl.getBucket i1).containsF f then .Maybe
    else if (fl.getBucket i2).containsF f then .Maybe
    else .No

/-- `math/bits.Len64`: the number of bits needed to represent `n`.  The fuel
(`64`) covers every `uint64` value; the recursion halves `n` each step. -/
def bitLenAux : Nat → Nat → Nat
  | 0, _ => 0
  | fuel + 1, n => if n = 0 then 0 else bitLenAux fuel (n / 2) + 1

def bitLen64 (n : Nat) : Nat :=
  bitLenAux 64 (n % 2 ^ 64)

/-- Source `NewRaw` (the spec's `ConstructRaw`): `none` models the
"invalid params" panic, in which case no filter is produced. -/
def NewRaw (f b n : Nat) : Option Filter :=
  if f < 2 ∨ f > 16 ∨ b < 1 ∨ b > 8 ∨ f * b > 64 then none
  else
    let n2 := 1 <<< bitLen64 n
    let enc : bucketEncoding :=
      if 4 ≤ f ∧ b = 4 then .packed ⟨f⟩ else .direct ⟨f, b⟩
    some { inner := BitStore.new n2 enc.size
           bucketEncoding := enc
           count := 0
           overflowed := false
           f := f }

/-- One externally visible mutating-or-querying operation on a filter, used to
state properties over the filter's lifetime.  `add` carries the random stream
its eviction loop would draw from. -/
inductive Op where
  | add (x : List Nat) (rnd : List Nat)
  | del (x : List Nat)
  | query (x : List Nat)
deriving Repr, DecidableEq

def applyOp (fl : Filter) : Op → Filter
  | .add x rnd => fl.Add x rnd
  | .del x => (fl.Delete x).1
  | .query _ => fl

def applyOps (fl : Filter) (ops : List Op) : Filter :=
  ops.foldl applyOp fl

/-! ### Generic helpers about bits and lists -/

theorem getD_indexOf_self {l : List Nat} {p : Nat} (h : p ∈ l) :
    l.getD (l.indexOf p) 0 = p := by
  have hlt : l.indexOf p < l.length := List.indexOf_lt_length.mpr h
  rw [List.getD_eq_getElem _ _ hlt]
  exact List.getElem_indexOf hlt

theorem or_shiftRight_distrib (a b s : Nat) :
    (a ||| b) >>> s = (a >>> s) ||| (b >>> s) := by
  apply Nat.eq_of_testBit_eq
  intro i
  simp [Nat.testBit_shiftRight]

theorem or_shiftLeft_distrib (a b s : Nat) :
    (a ||| b) <<< s = (a <<< s) ||| (b <<< s) := by
  apply Nat.eq_of_testBit_eq
  intro i
  simp [Nat.testBit_shiftLeft, Bool.and_or_distrib_left]

theorem shiftRight_eq_zero_of_lt {a : Nat} {s : Nat} (h : a < 2 ^ s) : a >>> s = 0 := by
  rw [Nat.shiftRight_eq_div_pow]
  exact Nat.div_eq_of_lt h

theorem shiftLeft_shiftRight_add (b k s : Nat) : (b <<< k) >>> (k + s) = b >>> s := by
  rw [Nat.shiftRight_add, Nat.shiftLeft_shiftRight]

theorem or_shiftLeft_shiftRight (a b s : Nat) (h : a < 2 ^ s) :
    (a ||| b <<< s) >>> s = b := by
  rw [or_shiftRight_distrib, shiftRight_eq_zero_of_lt h, Nat.shiftLeft_shiftRight,
    Nat.zero_or]

theorem and_or_shiftLeft_mask (a b w : Nat) :
    (a ||| b <<< w) &&& (2 ^ w - 1) = a &&& (2 ^ w - 1) := by
  apply Nat.eq_of_testBit_eq
  intro i
  simp only [Nat.testBit_and, Nat.testBit_or, Nat.testBit_two_pow_sub_one,
    Nat.testBit_shiftLeft]
  by_cases hi : i < w
  · simp [hi, Nat.not_le_of_lt hi]
  · simp [hi]

theorem low_or_high_eq (a k : Nat) : (a &&& (2 ^ k - 1)) ||| (a >>> k) <<< k = a := by
  apply Nat.eq_of_testBit_eq
  intro i
  simp only [Nat.testBit_or, Nat.testBit_and, Nat.testBit_two_pow_sub_one,
    Nat.testBit_shiftLeft, Nat.testBit_shiftRight]
  by_cases hi : i < k
  · simp [hi, Nat.not_le_of_lt hi]
  · simp only [hi, decide_False, Bool.and_false, Bool.false_or, ge_iff_le,
      Nat.le_of_not_lt hi, decide_True, Bool.true_and]
    congr 1
    omega

/-- Little-endian packing of a list of `w`-bit fields into one word, the shape
both bucket encoders' OR-accumulation loops produce. -/
def genPack (w : Nat) : List Nat → Nat
  | [] => 0
  | v :: vs => v ||| (genPack w vs) <<< w

theorem genPack_extract (w : Nat) : ∀ (vs : List Nat) (i : Nat), i < vs.length →
    (∀ j, j ≤ i → vs.getD j 0 < 2 ^ w) →
    ((genPack w vs) >>> (w * i)) &&& (2 ^ w - 1) = vs.getD i 0 := by
  intro vs
  induction vs with
  | nil => intro i hi; simp at hi
  | cons v vs ih =>
    intro i hi hbound
    cases i with
    | zero =>
      have hv : v < 2 ^ w := by simpa using hbound 0 (Nat.le_refl 0)
      simp only [genPack, Nat.mul_zero, Nat.shiftRight_zero, List.getD_cons_zero]
      rw [and_or_shiftLeft_mask, Nat.and_pow_two_sub_one_eq_mod, Nat.mod_eq_of_lt hv]
    | succ i =>
      have hv : v < 2 ^ w := by simpa using hbound 0 (Nat.zero_le _)
      have hv' : v < 2 ^ (w + w * i) :=
        lt_of_lt_of_le hv (Nat.pow_le_pow_right (by norm_num) (Nat.le_add_right _ _))
      have hmul : w * (i + 1) = w + w * i := by ring
      simp only [genPack, hmul, or_shiftRight_distrib, shiftRight_eq_zero_of_lt hv',
        shiftLeft_shiftRight_add, Nat.zero_or, List.getD_cons_succ]
      exact ih i (by simpa using hi) (fun j hj => by
        have := hbound (j + 1) (by omega)
        simpa using this)

theorem genPack_lt (w : Nat) : ∀ vs : List Nat, (∀ v ∈ vs, v < 2 ^ w) →
    genPack w vs < 2 ^ (w * vs.length) := by
  intro vs
  induction vs with
  | nil => simp [genPack]
  | cons v vs ih =>
    intro hb
    have hv : v < 2 ^ w := hb v (List.mem_cons_self _ _)
    have htl : genPack w vs < 2 ^ (w * vs.length) := ih (fun x hx => hb x (List.mem_cons_of_mem _ hx))
    have h1 : v < 2 ^ (w * (vs.length + 1)) :=
      lt_of_lt_of_le hv (Nat.pow_le_pow_right (by norm_num) (by nlinarith))
    have h2 : (genPack w vs) <<< w < 2 ^ (w * (vs.length + 1)) := by
      rw [Nat.shiftLeft_eq]
      calc genPack w vs * 2 ^ w < 2 ^ (w * vs.length) * 2 ^ w :=
            mul_lt_mul_of_pos_right htl (Nat.two_pow_pos w)
        _ = 2 ^ (w * vs.length + w) := by rw [Nat.pow_add]
        _ ≤ 2 ^ (w * (vs.length + 1)) := Nat.pow_le_pow_right (by norm_num) (by ring_nf; omega)
    simpa [genPack] using Nat.or_lt_two_pow h1 h2

theorem genPack_append_single (w : Nat) : ∀ (vs : List Nat) (t : Nat),
    genPack w (vs ++ [t]) = genPack w vs ||| t <<< (w * vs.length) := by
  intro vs
  induction vs with
  | nil => intro t; simp [genPack]
  | cons v vs ih =>
    intro t
    have hmul : w * (vs.length + 1) = w * vs.length + w := by ring
    rw [List.cons_append]
    simp only [genPack, List.length_cons, hmul]
    rw [ih, or_shiftLeft_distrib, ← Nat.shiftLeft_add, ← Nat.or_assoc]

/-- The OR-accumulation loops of both encoders, written as a fold over slot
indices with ascending field offsets, produce a `genPack` word. -/
theorem foldl_range_orPackG (w : Nat) : ∀ (n : Nat) (g : Nat → Nat) (k acc : Nat),
    (List.range n).foldl (fun r i => r ||| (g i) <<< (i * w + k)) acc
      = acc ||| (genPack w ((List.range n).map g)) <<< k := by
  intro n
  induction n with
  | zero => intro g k acc; simp [genPack]
  | succ n ih =>
    intro g k acc
    rw [List.range_succ_eq_map, List.foldl_cons, List.foldl_map]
    have hfn : (fun (r i : Nat) => r ||| (g (i + 1)) <<< ((i + 1) * w + k))
        = fun (r i : Nat) => r ||| ((g ∘ (· + 1)) i) <<< (i * w + (w + k)) := by
      funext r i
      simp only [Function.comp]
      congr 2
      ring
    rw [hfn, ih (g ∘ (· + 1)) (w + k)]
    rw [List.map_cons, List.map_map]
    simp only [List.getD_cons_zero, Nat.zero_mul, Nat.zero_add, genPack,
      or_shiftLeft_distrib, Nat.shiftLeft_add, Nat.or_assoc]

theorem foldl_range_orPackG0 (w n : Nat) (g : Nat → Nat) :
    (List.range n).foldl (fun r i => r ||| (g i) <<< (i * w)) 0
      = genPack w ((List.range n).map g) := by
  have h := foldl_range_orPackG w n g 0 0
  simp only [Nat.add_zero, Nat.shiftLeft_zero, Nat.zero_or] at h
  exact h

theorem take_set_comm (l : List Nat) (i v n : Nat) :
    (l.set i v).take n = if i < n then (l.take n).set i v else l.take n := by
  split_ifs with h
  · apply List.ext_getElem?
    intro j
    simp only [List.getElem?_take, List.getElem?_set, List.length_take, List.length_set,
      lt_min_iff]
    split_ifs <;> simp_all <;> omega
  · apply List.ext_getElem?
    intro j
    simp only [List.getElem?_take, List.getElem?_set]
    split_ifs <;> simp_all <;> omega

theorem range_map_getD (es : List Nat) (n : Nat) (h : n ≤ es.length) :
    (List.range n).map (fun i => es.getD i 0) = es.take n := by
  apply List.ext_getElem
  · simp [h]
  · intro i h1 h2
    simp only [List.getElem_map, List.getElem_range, List.getElem_take]
    rw [List.getD_eq_getElem]

theorem getD_range_map (g : Nat → Nat) (n i : Nat) (hi : i < n) :
    ((List.range n).map g).getD i 0 = g i := by
  rw [List.getD_eq_getElem _ _ (by simpa using hi)]
  simp

/-! ### Bucket content lemmas -/

theorem containsF_iff_mem (b : bucket) (g : Nat) :
    b.containsF g = true ↔ g ∈ b.entries.take b.l := by
  simp [bucket.containsF, List.any_eq_true]

theorem content_mem (b : bucket) (g : Nat) : g ∈ b.content ↔ g ∈ b.entries.take b.l :=
  Multiset.mem_coe

theorem containsF_eq_decide (b : bucket) (g : Nat) :
    b.containsF g = decide (g ∈ b.content) := by
  cases hb : b.containsF g
  · have hnm : g ∉ b.entries.take b.l := fun hm => by
      rw [(containsF_iff_mem b g).mpr hm] at hb
      exact Bool.noConfusion hb
    have : ¬ g ∈ b.content := fun hm => hnm ((content_mem b g).mp hm)
    simp [this]
  · simp [(content_mem b g).mpr ((containsF_iff_mem b g).mp hb)]

theorem containsF_congr {b b' : bucket} (h : b.content = b'.content) (g : Nat) :
    b.containsF g = b'.containsF g := by
  rw [containsF_eq_decide, containsF_eq_decide, h]

theorem hasEmpty_eq_containsF_zero (b : bucket) : b.hasEmpty = b.containsF 0 := rfl

theorem addAux_length (g : Nat) : ∀ (n : Nat) (es : List Nat),
    (addAux g n es).length = es.length := by
  intro n
  induction n with
  | zero => intro es; cases es <;> rfl
  | succ n ih =>
    intro es
    cases es with
    | nil => rfl
    | cons e es =>
      simp only [addAux]
      split <;> simp [ih]

theorem addAux_take_place (g : Nat) : ∀ (n : Nat) (es : List Nat),
    (0 : Nat) ∈ es.take n → g ∈ (addAux g n es).take n := by
  intro n
  induction n with
  | zero => intro es h; simp at h
  | succ n ih =>
    intro es h
    cases es with
    | nil => simp at h
    | cons e es =>
      rw [List.take_succ_cons, List.mem_cons] at h
      simp only [addAux]
      by_cases he : e = 0
      · simp [he]
      · have h0 : (0 : Nat) ∈ es.take n := by
          rcases h with h' | h'
          · exact absurd h'.symm he
          · exact h'
        rw [if_neg (by simpa using he), List.take_succ_cons, List.mem_cons]
        exact Or.inr (ih es h0)

theorem addAux_take_preserve (g g' : Nat) (hne : g' ≠ 0) : ∀ (n : Nat) (es : List Nat),
    g' ∈ es.take n → g' ∈ (addAux g n es).take n := by
  intro n
  induction n with
  | zero => intro es h; simp at h
  | succ n ih =>
    intro es h
    cases es with
    | nil => simp at h
    | cons e es =>
      rw [List.take_succ_cons, List.mem_cons] at h
      simp only [addAux]
      rcases h with h' | h'
      · subst h'
        rw [if_neg (by simpa using hne), List.take_succ_cons, List.mem_cons]
        exact Or.inl rfl
      · split
        · rw [List.take_succ_cons, List.mem_cons]
          exact Or.inr h'
        · rw [List.take_succ_cons, List.mem_cons]
          exact Or.inr (ih es h')

theorem addAux_take_mem (g : Nat) : ∀ (n : Nat) (es : List Nat) (e : Nat),
    e ∈ (addAux g n es).take n → e = g ∨ e ∈ es.take n := by
  intro n
  induction n with
  | zero => intro es e h; simp at h
  | succ n ih =>
    intro es e h
    cases es with
    | nil =>
      have : addAux g (n + 1) ([] : List Nat) = [] := rfl
      rw [this] at h
      simp at h
    | cons e0 es =>
      simp only [addAux] at h
      split at h
      · rw [List.take_succ_cons, List.mem_cons] at h
        rcases h with h' | h'
        · exact Or.inl h'
        · exact Or.inr (by rw [List.take_succ_cons, List.mem_cons]; exact Or.inr h')
      · rw [List.take_succ_cons, List.mem_cons] at h
        rcases h with h' | h'
        · exact Or.inr (by rw [List.take_succ_cons, List.mem_cons]; exact Or.inl h')
        · rcases ih es e h' with h'' | h''
          · exact Or.inl h''
          · exact Or.inr (by rw [List.take_succ_cons, List.mem_cons]; exact Or.inr h'')

theorem deleteAux_length (g : Nat) : ∀ (n : Nat) (es : List Nat),
    (deleteAux g n es).length = es.length := by
  intro n
  induction n with
  | zero => intro es; cases es <;> rfl
  | succ n ih =>
    intro es
    cases es with
    | nil => rfl
    | cons e es => simp [deleteAux, ih]

theorem deleteAux_take_preserve (g g' : Nat) (hne : g' ≠ g) : ∀ (n : Nat) (es : List Nat),
    g' ∈ es.take n → g' ∈ (deleteAux g n es).take n := by
  intro n
  induction n with
  | zero => intro es h; simp at h
  | succ n ih =>
    intro es h
    cases es with
    | nil => simp at h
    | cons e es =>
      rw [List.take_succ_cons, List.mem_cons] at h
      simp only [deleteAux]
      rw [List.take_succ_cons, List.mem_cons]
      rcases h with h' | h'
      · subst h'
        exact Or.inl (by rw [if_neg (by simpa using hne)])
      · exact Or.inr (ih es h')

theorem deleteAux_take_mem (g : Nat) : ∀ (n : Nat) (es : List Nat) (e : Nat),
    e ∈ (deleteAux g n es).take n → e = 0 ∨ e ∈ es.take n := by
  intro n
  induction n with
  | zero => intro es e h; simp at h
  | succ n ih =>
    intro es e h
    cases es with
    | nil =>
      have : deleteAux g (n + 1) ([] : List Nat) = [] := rfl
      rw [this] at h
      simp at h
    | cons e0 es =>
      simp only [deleteAux] at h
      rw [List.take_succ_cons, List.mem_cons] at h
      rcases h with h' | h'
      · split at h'
        · exact Or.inl h'
        · exact Or.inr (by rw [List.take_succ_cons, List.mem_cons]; exact Or.inl h')
      · rcases ih es e h' with h'' | h''
        · exact Or.inl h''
        · exact Or.inr (by rw [List.take_succ_cons, List.mem_cons]; exact Or.inr h'')

theorem set_take_self (es : List Nat) (entry v n : Nat) (h1 : entry < n)
    (h2 : entry < es.length) : v ∈ (es.set entry v).take n := by
  rw [take_set_comm, if_pos h1]
  have hlt : entry < ((es.take n).length) := by
    simp only [List.length_take, lt_min_iff]
    exact ⟨h1, h2⟩
  refine List.mem_iff_getElem.mpr ⟨entry, by simpa using hlt, ?_⟩
  exact List.getElem_set_self (by simpa using hlt)

theorem set_take_preserve (es : List Nat) (entry v n g : Nat)
    (hg : es.getD entry 0 ≠ g) (hmem : g ∈ es.take n) : g ∈ (es.set entry v).take n := by
  by_cases hlen : entry < es.length
  · rw [take_set_comm]
    split_ifs with hn
    · obtain ⟨j, hj, hjg⟩ := List.getElem_of_mem hmem
      have hjn : j < n := by
        simp only [List.length_take, lt_min_iff] at hj
        exact hj.1
      have hjlen : j < es.length := by
        simp only [List.length_take, lt_min_iff] at hj
        exact hj.2
      have hjg2 : es[j] = g := by
        rw [← hjg]
        exact (List.getElem_take es).symm
      have hje : entry ≠ j := by
        intro he
        apply hg
        rw [List.getD_eq_getElem _ _ hlen]
        subst he
        exact hjg2
      refine List.mem_iff_getElem.mpr ⟨j, by simpa using hj, ?_⟩
      rw [List.getElem_set_ne hje]
      rw [← hjg2]
      exact List.getElem_take es
    · exact hmem
  · rw [List.set_eq_of_length_le (by omega)]
    exact hmem

theorem set_take_mem (es : List Nat) (entry v n : Nat) (e : Nat)
    (h : e ∈ (es.set entry v).take n) : e = v ∨ e ∈ es.take n := by
  rw [take_set_comm] at h
  split_ifs at h
  · rcases List.mem_or_eq_of_mem_set h with h' | h'
    · exact Or.inr h'
    · exact Or.inl h'
  · exact Or.inr h

/-! ### The lookup tables -/

theorem length_flatMap_le {α β : Type} (l : List α) (f : α → List β) (K : Nat)
    (h : ∀ a ∈ l, (f a).length ≤ K) : (l.flatMap f).length ≤ l.length * K := by
  induction l with
  | nil => simp
  | cons a l ih =>
    have ha := h a (List.mem_cons_self _ _)
    have hl := ih (fun x hx => h x (List.mem_cons_of_mem _ hx))
    simp only [List.flatMap_cons, List.length_append, List.length_cons]
    calc (f a).length + (l.flatMap f).length ≤ K + l.length * K := by omega
      _ = (l.length + 1) * K := by ring

theorem canonicalBuckets_length_le : canonicalBuckets.length ≤ 65536 := by
  unfold canonicalBuckets
  refine le_trans (length_flatMap_le _ _ 4096 ?_) (by simp)
  intro a _
  refine le_trans (length_flatMap_le _ _ 256 ?_) (by simp; omega)
  intro b _
  refine le_trans (length_flatMap_le _ _ 16 ?_) (by simp; omega)
  intro c _
  simp

theorem mem_canonicalBuckets {a b c d : Nat} (hab : a ≤ b) (hbc : b ≤ c)
    (hcd : c ≤ d) (hd : d < 16) :
    (a <<< 12) ||| (b <<< 8) ||| (c <<< 4) ||| d ∈ canonicalBuckets := by
  unfold canonicalBuckets
  refine List.mem_flatMap.mpr ⟨a, List.mem_range.mpr (by omega), ?_⟩
  refine List.mem_flatMap.mpr ⟨b, List.mem_range'_1.mpr ⟨hab, by omega⟩, ?_⟩
  refine List.mem_flatMap.mpr ⟨c, List.mem_range'_1.mpr ⟨hbc, by omega⟩, ?_⟩
  exact List.mem_map.mpr ⟨d, List.mem_range'_1.mpr ⟨hcd, by omega⟩, rfl⟩

theorem lookup_roundtrip {p : Nat} (h : p ∈ canonicalBuckets) :
    lookupBitsToFingerprints (lookupFingerprintsToBits p) = p :=
  getD_indexOf_self h

theorem lookupFingerprintsToBits_lt {p : Nat} (h : p ∈ canonicalBuckets) :
    lookupFingerprintsToBits p < 65536 := by
  have h1 := List.indexOf_lt_length.mpr h
  have h2 := canonicalBuckets_length_le
  unfold lookupFingerprintsToBits
  omega

/-! ### The low-nibble bubble sort -/

theorem and_15_eq_mod (x : Nat) : x &&& 15 = x % 16 := by
  have h := Nat.and_pow_two_sub_one_eq_mod x 4
  norm_num at h
  exact h

theorem casLower4_zero (a b c d : Nat) (rest : List Nat) :
    casLower4 0 (a :: b :: c :: d :: rest) =
      if b % 16 < a % 16 then b :: a :: c :: d :: rest else a :: b :: c :: d :: rest := by
  simp only [casLower4, List.getD_cons_zero, List.getD_cons_succ, and_15_eq_mod]
  split_ifs <;> rfl

theorem casLower4_one (a b c d : Nat) (rest : List Nat) :
    casLower4 1 (a :: b :: c :: d :: rest) =
      if c % 16 < b % 16 then a :: c :: b :: d :: rest else a :: b :: c :: d :: rest := by
  simp only [casLower4, List.getD_cons_zero, List.getD_cons_succ, and_15_eq_mod]
  split_ifs <;> rfl

theorem casLower4_two (a b c d : Nat) (rest : List Nat) :
    casLower4 2 (a :: b :: c :: d :: rest) =
      if d % 16 < c % 16 then a :: b :: d :: c :: rest else a :: b :: c :: d :: rest := by
  simp only [casLower4, List.getD_cons_zero, List.getD_cons_succ, and_15_eq_mod]
  split_ifs <;> rfl

theorem or_left_comm_nat (a b c : Nat) : a ||| (b ||| c) = b ||| (a ||| c) := by
  rw [← Nat.or_assoc, Nat.or_comm a b, Nat.or_assoc]

theorem pack4_eq_genPack (n0 n1 n2 n3 : Nat) :
    (n0 <<< 12) ||| (n1 <<< 8) ||| (n2 <<< 4) ||| n3 = genPack 4 [n3, n2, n1, n0] := by
  simp only [genPack, Nat.zero_shiftLeft, Nat.or_zero, or_shiftLeft_distrib,
    ← Nat.shiftLeft_add]
  norm_num
  simp [Nat.or_comm, Nat.or_assoc, or_left_comm_nat]

theorem pack4_extract (n0 n1 n2 n3 : Nat) (h0 : n0 < 16) (h1 : n1 < 16) (h2 : n2 < 16)
    (h3 : n3 < 16) (i : Nat) (hi : i < 4) :
    (((n0 <<< 12) ||| (n1 <<< 8) ||| (n2 <<< 4) ||| n3) >>> (12 - 4 * i)) &&& 15
      = [n0, n1, n2, n3].getD i 0 := by
  rw [pack4_eq_genPack]
  have hb : ∀ j, [n3, n2, n1, n0].getD j 0 < 2 ^ 4 := by
    intro j
    rcases j with _ | _ | _ | _ | j <;> simp_all
  interval_cases i
  · simpa using genPack_extract 4 [n3, n2, n1, n0] 3 (by norm_num) (fun j _ => hb j)
  · simpa using genPack_extract 4 [n3, n2, n1, n0] 2 (by norm_num) (fun j _ => hb j)
  · simpa using genPack_extract 4 [n3, n2, n1, n0] 1 (by norm_num) (fun j _ => hb j)
  · simpa using genPack_extract 4 [n3, n2, n1, n0] 0 (by norm_num) (fun j _ => hb j)

theorem sortLower4_spec (e0 e1 e2 e3 : Nat) (rest : List Nat) :
    ∃ s0 s1 s2 s3,
      casLower4 0 (casLower4 1 (casLower4 0 (casLower4 2 (casLower4 1
          (casLower4 0 (e0 :: e1 :: e2 :: e3 :: rest)))))) = s0 :: s1 :: s2 :: s3 :: rest ∧
      (s0 ::ₘ s1 ::ₘ s2 ::ₘ s3 ::ₘ (0 : Multiset Nat)) = e0 ::ₘ e1 ::ₘ e2 ::ₘ e3 ::ₘ 0 ∧
      s0 % 16 ≤ s1 % 16 ∧ s1 % 16 ≤ s2 % 16 ∧ s2 % 16 ≤ s3 % 16 := by
  rw [casLower4_zero]
  split_ifs with h1 <;> rw [casLower4_one] <;> split_ifs with h2 <;>
    rw [casLower4_two] <;> split_ifs with h3 <;> rw [casLower4_zero] <;>
    split_ifs with h4 <;> rw [casLower4_one] <;> split_ifs with h5 <;>
    rw [casLower4_zero] <;> split_ifs with h6 <;>
    exact ⟨_, _, _, _, rfl, by simp only [← Multiset.singleton_add]; try abel, by omega,
      by omega, by omega⟩

/-! ### Bucket-encoding roundtrips -/

/-- Legality of an in-memory bucket for fingerprint width `fw` and capacity
`cap`: length-8 slot array, logical length equal to the capacity, and every
live slot below `2 ^ fw`. -/
def legalB (fw cap : Nat) (b : bucket) : Prop :=
  b.l = cap ∧ b.entries.length = 8 ∧ ∀ x ∈ b.entries.take b.l, x < 2 ^ fw

theorem direct_roundtrip (e : directBucketEncoding) (bk : bucket) (hb8 : e.b ≤ 8)
    (hleg : legalB e.f e.b bk) :
    (e.decode (e.encode bk)).content = bk.content := by
  obtain ⟨hl, hlen, hbound⟩ := hleg
  rw [hl] at hbound
  have henc : e.encode bk = genPack e.f (bk.entries.take e.b) := by
    unfold directBucketEncoding.encode
    rw [foldl_range_orPackG0 e.f e.b (fun i => bk.entries.getD i 0)]
    rw [range_map_getD _ _ (by omega)]
  have hex : ∀ i, i < e.b → ((e.encode bk) >>> (i * e.f)) &&& (2 ^ e.f - 1)
      = (bk.entries.take e.b).getD i 0 := by
    intro i hi
    have hilen : i < (bk.entries.take e.b).length := by
      simp only [List.length_take, lt_min_iff]
      omega
    have hj' : ∀ j, j ≤ i → (bk.entries.take e.b).getD j 0 < 2 ^ e.f := by
      intro j hj
      have hjlen : j < (bk.entries.take e.b).length := by
        simp only [List.length_take, lt_min_iff]
        omega
      rw [List.getD_eq_getElem _ _ hjlen]
      exact hbound _ (List.getElem_mem hjlen)
    have h := genPack_extract e.f (bk.entries.take e.b) i hilen hj'
    rw [Nat.mul_comm] at h
    rw [henc]
    exact h
  have hdec : (e.decode (e.encode bk)).entries.take (e.decode (e.encode bk)).l
      = bk.entries.take e.b := by
    show (((List.range 8).map (fun i =>
        if i < e.b then ((e.encode bk) >>> (i * e.f)) &&& (2 ^ e.f - 1) else 0)).take e.b)
      = bk.entries.take e.b
    rw [← List.map_take, List.take_range]
    have hmin : min e.b 8 = e.b := by omega
    rw [hmin]
    have hcg : ∀ i ∈ List.range e.b, (if i < e.b then
        ((e.encode bk) >>> (i * e.f)) &&& (2 ^ e.f - 1) else 0)
        = (bk.entries.take e.b).getD i 0 := by
      intro i hi
      have hib : i < e.b := List.mem_range.mp hi
      rw [if_pos hib, hex i hib]
    rw [List.map_congr_left hcg, range_map_getD _ _ (by
      simp only [List.length_take]
      omega)]
    simp [List.take_take]
  unfold bucket.content
  rw [hdec, hl]

theorem exists_four_cons (es : List Nat) (h : es.length = 8) :
    ∃ a b c d r, es = a :: b :: c :: d :: r := by
  rcases es with _ | ⟨a, es⟩
  · simp at h
  rcases es with _ | ⟨b, es⟩
  · simp at h
  rcases es with _ | ⟨c, es⟩
  · simp at h
  rcases es with _ | ⟨d, r⟩
  · simp at h
  exact ⟨a, b, c, d, r, rfl⟩

theorem packed_roundtrip (e : packedBucketEncoding) (bk : bucket)
    (hf4 : 4 ≤ e.f) (hleg : legalB e.f 4 bk) :
    (e.decode (e.encode bk)).content = bk.content := by
  obtain ⟨hl, hlen, hbound⟩ := hleg
  rw [hl] at hbound
  obtain ⟨e0, e1, e2, e3, rest, hes⟩ := exists_four_cons bk.entries hlen
  obtain ⟨s0, s1, s2, s3, hsort, hperm, h01, h12, h23⟩ := sortLower4_spec e0 e1 e2 e3 rest
  have hsentries : (sortBucketByLower4 bk).entries = s0 :: s1 :: s2 :: s3 :: rest := by
    unfold sortBucketByLower4
    rw [hes]
    exact hsort
  have htake4 : bk.entries.take 4 = [e0, e1, e2, e3] := by rw [hes]; rfl
  have hsmem : ∀ x, x ∈ (s0 ::ₘ s1 ::ₘ s2 ::ₘ s3 ::ₘ (0 : Multiset Nat)) → x < 2 ^ e.f := by
    rw [hperm]
    intro x hx
    simp only [Multiset.mem_cons, Multiset.not_mem_zero, or_false] at hx
    have hmem : ∀ y ∈ bk.entries.take 4, y < 2 ^ e.f := by rw [htake4] at hbound ⊢; exact hbound
    rcases hx with h | h | h | h <;> subst h <;>
      exact hmem _ (by rw [htake4]; simp)
  have hs0 : s0 < 2 ^ e.f := hsmem s0 (by simp)
  have hs1 : s1 < 2 ^ e.f := hsmem s1 (by simp)
  have hs2 : s2 < 2 ^ e.f := hsmem s2 (by simp)
  have hs3 : s3 < 2 ^ e.f := hsmem s3 (by simp)
  have hnib : ∀ s : Nat, s &&& 15 < 16 := fun s => by
    rw [and_15_eq_mod]
    omega
  have hsize : e.size - 12 = (e.f - 4) * 4 := by
    unfold packedBucketEncoding.size
    omega
  have hhi : ∀ s : Nat, s < 2 ^ e.f → s >>> 4 < 2 ^ (e.f - 4) := by
    intro s hs
    rw [Nat.shiftRight_eq_div_pow]
    apply Nat.div_lt_of_lt_mul
    calc s < 2 ^ e.f := hs
      _ = 2 ^ 4 * 2 ^ (e.f - 4) := by rw [← Nat.pow_add]; congr 1; omega
  have hpacked : (List.range 4).foldl
      (fun p i => p ||| (((sortBucketByLower4 bk).entries.getD i 0) &&& 0xF) <<< (12 - 4 * i)) 0
      = ((s0 &&& 15) <<< 12) ||| ((s1 &&& 15) <<< 8) ||| ((s2 &&& 15) <<< 4) ||| (s3 &&& 15) := by
    rw [hsentries]
    have hr4 : List.range 4 = [0, 1, 2, 3] := rfl
    simp only [hr4, List.foldl_cons, List.foldl_nil, List.getD_cons_zero, List.getD_cons_succ]
    norm_num
  have hhigh : (List.range 4).foldl
      (fun r i => r ||| (((sortBucketByLower4 bk).entries.getD i 0) >>> 4) <<< ((e.f - 4) * i)) 0
      = genPack (e.f - 4) [s0 >>> 4, s1 >>> 4, s2 >>> 4, s3 >>> 4] := by
    rw [hsentries]
    have hr4 : List.range 4 = [0, 1, 2, 3] := rfl
    have hw2 : (e.f - 4) * 2 = (e.f - 4) + (e.f - 4) := by ring
    have hw3 : (e.f - 4) * 3 = (e.f - 4) + ((e.f - 4) + (e.f - 4)) := by ring
    simp only [hr4, List.foldl_cons, List.foldl_nil, List.getD_cons_zero, List.getD_cons_succ,
      genPack, Nat.mul_zero, Nat.mul_one, Nat.zero_shiftLeft, Nat.or_zero, Nat.zero_or,
      Nat.shiftLeft_zero, or_shiftLeft_distrib, hw2, hw3, Nat.shiftLeft_add, Nat.or_assoc]
  have hencode : e.encode bk
      = genPack (e.f - 4) [s0 >>> 4, s1 >>> 4, s2 >>> 4, s3 >>> 4]
        ||| (lookupFingerprintsToBits (((s0 &&& 15) <<< 12) ||| ((s1 &&& 15) <<< 8)
          ||| ((s2 &&& 15) <<< 4) ||| (s3 &&& 15))) <<< ((e.f - 4) * 4) := by
    simp only [packedBucketEncoding.encode]
    rw [hpacked, hhigh, hsize]
  have hp : (((s0 &&& 15) <<< 12) ||| ((s1 &&& 15) <<< 8) ||| ((s2 &&& 15) <<< 4)
      ||| (s3 &&& 15)) ∈ canonicalBuckets := by
    apply mem_canonicalBuckets
    · rw [and_15_eq_mod, and_15_eq_mod]; exact h01
    · rw [and_15_eq_mod, and_15_eq_mod]; exact h12
    · rw [and_15_eq_mod, and_15_eq_mod]; exact h23
    · exact hnib s3
  have hHb : ∀ v ∈ [s0 >>> 4, s1 >>> 4, s2 >>> 4, s3 >>> 4], v < 2 ^ (e.f - 4) := by
    intro v hv
    simp only [List.mem_cons, List.not_mem_nil, or_false] at hv
    rcases hv with h | h | h | h <;> subst h <;>
      first
      | exact hhi _ hs0
      | exact hhi _ hs1
      | exact hhi _ hs2
      | exact hhi _ hs3
  have hHlt : genPack (e.f - 4) [s0 >>> 4, s1 >>> 4, s2 >>> 4, s3 >>> 4]
      < 2 ^ ((e.f - 4) * 4) := by
    have h := genPack_lt (e.f - 4) _ hHb
    simpa using h
  have hcode16 : lookupFingerprintsToBits (((s0 &&& 15) <<< 12) ||| ((s1 &&& 15) <<< 8)
      ||| ((s2 &&& 15) <<< 4) ||| (s3 &&& 15)) < 65536 := lookupFingerprintsToBits_lt hp
  have hxshift : ((e.encode bk) >>> (e.size - 12)) % 65536
      = lookupFingerprintsToBits (((s0 &&& 15) <<< 12) ||| ((s1 &&& 15) <<< 8)
        ||| ((s2 &&& 15) <<< 4) ||| (s3 &&& 15)) := by
    rw [hencode, hsize, or_shiftLeft_shiftRight _ _ _ hHlt]
    exact Nat.mod_eq_of_lt hcode16
  have hxappend : e.encode bk = genPack (e.f - 4)
      ([s0 >>> 4, s1 >>> 4, s2 >>> 4, s3 >>> 4] ++ [lookupFingerprintsToBits
        (((s0 &&& 15) <<< 12) ||| ((s1 &&& 15) <<< 8) ||| ((s2 &&& 15) <<< 4)
          ||| (s3 &&& 15))]) := by
    rw [genPack_append_single]
    simpa using hencode
  have hext : ∀ i, i < 4 → ((e.encode bk) >>> ((e.f - 4) * i)) &&& (2 ^ (e.f - 4) - 1)
      = [s0 >>> 4, s1 >>> 4, s2 >>> 4, s3 >>> 4].getD i 0 := by
    intro i hi
    have hib : i < ([s0 >>> 4, s1 >>> 4, s2 >>> 4, s3 >>> 4] ++ [lookupFingerprintsToBits
        (((s0 &&& 15) <<< 12) ||| ((s1 &&& 15) <<< 8) ||| ((s2 &&& 15) <<< 4)
          ||| (s3 &&& 15))]).length := by simp; omega
    have hbnd : ∀ j, j ≤ i → ([s0 >>> 4, s1 >>> 4, s2 >>> 4, s3 >>> 4]
        ++ [lookupFingerprintsToBits (((s0 &&& 15) <<< 12) ||| ((s1 &&& 15) <<< 8)
          ||| ((s2 &&& 15) <<< 4) ||| (s3 &&& 15))]).getD j 0 < 2 ^ (e.f - 4) := by
      intro j hj
      have hj4 : j < 4 := by omega
      rw [List.getD_append _ _ _ _ (by simp; omega)]
      apply hHb
      rcases (by omega : j = 0 ∨ j = 1 ∨ j = 2 ∨ j = 3) with h | h | h | h <;> subst h <;> simp
    have h := genPack_extract (e.f - 4) _ i hib hbnd
    rw [hxappend, h, List.getD_append _ _ _ _ (by simp; omega)]
  have hdec4 : ∀ i, i < 4 →
      ((lookupBitsToFingerprints (((e.encode bk) >>> (e.size - 12)) % 65536) >>> (12 - 4 * i)) &&& 0xF)
        ||| (((e.encode bk) >>> ((e.f - 4) * i)) &&& (2 ^ (e.f - 4) - 1)) <<< 4
      = [s0, s1, s2, s3].getD i 0 := by
    intro i hi
    rw [hxshift, lookup_roundtrip hp, hext i hi]
    have hpx := pack4_extract (s0 &&& 15) (s1 &&& 15) (s2 &&& 15) (s3 &&& 15)
      (hnib s0) (hnib s1) (hnib s2) (hnib s3) i hi
    rw [hpx]
    have hlow : ∀ s : Nat, (s &&& 15) ||| (s >>> 4) <<< 4 = s := by
      intro s
      have h := low_or_high_eq s 4
      norm_num at h
      exact h
    rcases (by omega : i = 0 ∨ i = 1 ∨ i = 2 ∨ i = 3) with h | h | h | h <;> subst h <;>
      simp only [List.getD_cons_zero, List.getD_cons_succ] <;> exact hlow _
  have hdecl : (e.decode (e.encode bk)).entries.take (e.decode (e.encode bk)).l
      = [s0, s1, s2, s3] := by
    show ((List.range 8).map (fun i =>
        if i < 4 then
          ((lookupBitsToFingerprints (((e.encode bk) >>> (e.size - 12)) % 65536) >>> (12 - 4 * i)) &&& 0xF)
            ||| (((e.encode bk) >>> ((e.f - 4) * i)) &&& (2 ^ (e.f - 4) - 1)) <<< 4
        else 0)).take 4 = [s0, s1, s2, s3]
    rw [← List.map_take, List.take_range]
    have hcg : ∀ i ∈ List.range (min 4 8), (if i < 4 then
        ((lookupBitsToFingerprints (((e.encode bk) >>> (e.size - 12)) % 65536) >>> (12 - 4 * i)) &&& 0xF)
          ||| (((e.encode bk) >>> ((e.f - 4) * i)) &&& (2 ^ (e.f - 4) - 1)) <<< 4
        else 0) = [s0, s1, s2, s3].getD i 0 := by
      intro i hi
      have hi4 : i < 4 := by
        have := List.mem_range.mp hi
        omega
      rw [if_pos hi4]
      exact hdec4 i hi4
    rw [List.map_congr_left hcg]
    rfl
  unfold bucket.content
  rw [hdecl, hl, htake4]
  have hco : ∀ a b c d : Nat, (↑[a, b, c, d] : Multiset Nat) = a ::ₘ b ::ₘ c ::ₘ d ::ₘ 0 := by
    intro a b c d
    rfl
  rw [hco, hco]
  exact hperm

/-! ### Encoding dispatch -/

/-- Parameter legality for an encoding, tied to the filter's fingerprint
width `fw`; exactly what `NewRaw`'s checks and dispatch establish. -/
def encOK : bucketEncoding → Nat → Prop
  | .direct e, fw => e.f = fw ∧ 2 ≤ e.f ∧ e.f ≤ 16 ∧ 1 ≤ e.b ∧ e.b ≤ 8 ∧ e.f * e.b ≤ 64
  | .packed e, fw => e.f = fw ∧ 4 ≤ e.f ∧ e.f ≤ 16

theorem cap_pos (enc : bucketEncoding) (fw : Nat) (h : encOK enc fw) : 1 ≤ enc.cap := by
  cases enc with
  | direct e => exact h.2.2.2.1
  | packed e => norm_num [bucketEncoding.cap]

theorem cap_le_eight (enc : bucketEncoding) (fw : Nat) (h : encOK enc fw) : enc.cap ≤ 8 := by
  cases enc with
  | direct e => exact h.2.2.2.2.1
  | packed e => norm_num [bucketEncoding.cap]

theorem roundtrip_content (enc : bucketEncoding) (fw : Nat) (h : encOK enc fw) (bk : bucket)
    (hleg : legalB fw enc.cap bk) : (enc.decode (enc.encode bk)).content = bk.content := by
  cases enc with
  | direct e =>
    obtain ⟨hf, _, _, _, hb8, _⟩ := h
    subst hf
    exact direct_roundtrip e bk hb8 hleg
  | packed e =>
    obtain ⟨hf, hf4, _⟩ := h
    subst hf
    exact packed_roundtrip e bk hf4 hleg

theorem decode_legal (enc : bucketEncoding) (fw : Nat) (h : encOK enc fw) (x : Nat) :
    legalB fw enc.cap (enc.decode x) := by
  have hpos : 0 < 2 ^ fw := Nat.two_pow_pos fw
  cases enc with
  | direct e =>
    obtain ⟨hf, _, _, _, hb8, _⟩ := h
    subst hf
    refine ⟨rfl, by simp [bucketEncoding.decode, directBucketEncoding.decode], ?_⟩
    intro v hv
    have hv' := List.mem_of_mem_take hv
    simp only [bucketEncoding.decode, directBucketEncoding.decode, List.mem_map] at hv'
    obtain ⟨i, _, hi⟩ := hv'
    split at hi
    · have hle : (x >>> (i * e.f)) &&& (2 ^ e.f - 1) ≤ 2 ^ e.f - 1 := Nat.and_le_right
      omega
    · omega
  | packed e =>
    obtain ⟨hf, hf4, _⟩ := h
    subst hf
    refine ⟨rfl, by simp [bucketEncoding.decode, packedBucketEncoding.decode], ?_⟩
    intro v hv
    have hv' := List.mem_of_mem_take hv
    simp only [bucketEncoding.decode, packedBucketEncoding.decode, List.mem_map] at hv'
    obtain ⟨i, _, hi⟩ := hv'
    split at hi
    · subst hi
      apply Nat.or_lt_two_pow
      · have h1 : (lookupBitsToFingerprints ((x >>> (e.size - 12)) % 65536) >>> (12 - 4 * i)) &&& 15 < 16 := by
          have := Nat.and_le_right
            (n := lookupBitsToFingerprints ((x >>> (e.size - 12)) % 65536) >>> (12 - 4 * i)) (m := 15)
          omega
        calc (lookupBitsToFingerprints ((x >>> (e.size - 12)) % 65536) >>> (12 - 4 * i)) &&& 15
            < 16 := h1
          _ = 2 ^ 4 := by norm_num
          _ ≤ 2 ^ e.f := Nat.pow_le_pow_right (by norm_num) hf4
      · have h2 : (x >>> ((e.f - 4) * i)) &&& (2 ^ (e.f - 4) - 1) ≤ 2 ^ (e.f - 4) - 1 :=
          Nat.and_le_right
        rw [Nat.shiftLeft_eq]
        have h3 : (2 ^ (e.f - 4) - 1) * 2 ^ 4 < 2 ^ (e.f - 4) * 2 ^ 4 := by
          have := Nat.two_pow_pos (e.f - 4)
          have : (0 : Nat) < 2 ^ 4 := by norm_num
          apply Nat.mul_lt_mul_of_lt_of_le (by omega) (Nat.le_refl _) this
        have h4 : 2 ^ (e.f - 4) * 2 ^ 4 = 2 ^ e.f := by
          rw [← Nat.pow_add]
          congr 1
          omega
        have h5 := Nat.two_pow_pos (e.f - 4)
        calc ((x >>> ((e.f - 4) * i)) &&& (2 ^ (e.f - 4) - 1)) * 2 ^ 4
            ≤ (2 ^ (e.f - 4) - 1) * 2 ^ 4 := Nat.mul_le_mul_right _ h2
          _ < 2 ^ e.f := by omega
    · subst hi
      exact hpos

theorem containsF_roundtrip (enc : bucketEncoding) (fw : Nat) (h : encOK enc fw)
    (bk : bucket) (hleg : legalB fw enc.cap bk) (g : Nat) :
    (enc.decode (enc.encode bk)).containsF g = bk.containsF g :=
  containsF_congr (roundtrip_content enc fw h bk hleg) g

/-! ### Bucket-level operation lemmas -/

theorem bucket_add_contains_self (b : bucket) (g : Nat) (h : b.hasEmpty = true) :
    (b.add g).containsF g = true := by
  rw [containsF_iff_mem]
  exact addAux_take_place g b.l b.entries ((containsF_iff_mem b 0).mp h)

theorem bucket_add_preserve (b : bucket) (g g' : Nat) (hne : g' ≠ 0)
    (h : b.containsF g' = true) : (b.add g).containsF g' = true := by
  rw [containsF_iff_mem]
  exact addAux_take_preserve g g' hne b.l b.entries ((containsF_iff_mem b g').mp h)

theorem bucket_add_legal (fw cap : Nat) (b : bucket) (hleg : legalB fw cap b) (g : Nat)
    (hg : g < 2 ^ fw) : legalB fw cap (b.add g) := by
  obtain ⟨hl, hlen, hbound⟩ := hleg
  refine ⟨hl, by simp [bucket.add, addAux_length, hlen], ?_⟩
  intro v hv
  rcases addAux_take_mem g b.l b.entries v hv with h' | h'
  · subst h'
    exact hg
  · exact hbound v h'

theorem bucket_delete_preserve (b : bucket) (g g' : Nat) (hne : g' ≠ g)
    (h : b.containsF g' = true) : (b.delete g).containsF g' = true := by
  rw [containsF_iff_mem]
  exact deleteAux_take_preserve g g' hne b.l b.entries ((containsF_iff_mem b g').mp h)

theorem bucket_delete_legal (fw cap : Nat) (b : bucket) (hleg : legalB fw cap b) (g : Nat) :
    legalB fw cap (b.delete g) := by
  obtain ⟨hl, hlen, hbound⟩ := hleg
  refine ⟨hl, by simp [bucket.delete, deleteAux_length, hlen], ?_⟩
  intro v hv
  rcases deleteAux_take_mem g b.l b.entries v hv with h' | h'
  · subst h'
    exact Nat.two_pow_pos fw
  · exact hbound v h'

theorem bucket_set_contains_self (b : bucket) (entry v : Nat) (h1 : entry < b.l)
    (h2 : entry < b.entries.length) :
    ({ b with entries := b.entries.set entry v } : bucket).containsF v = true := by
  rw [containsF_iff_mem]
  exact set_take_self b.entries entry v b.l h1 h2

theorem bucket_set_preserve (b : bucket) (entry v g : Nat)
    (hg : b.entries.getD entry 0 ≠ g) (h : b.containsF g = true) :
    ({ b with entries := b.entries.set entry v } : bucket).containsF g = true := by
  rw [containsF_iff_mem]
  exact set_take_preserve b.entries entry v b.l g hg ((containsF_iff_mem b g).mp h)

theorem bucket_set_legal (fw cap : Nat) (b : bucket) (hleg : legalB fw cap b)
    (entry v : Nat) (hv : v < 2 ^ fw) :
    legalB fw cap ({ b with entries := b.entries.set entry v } : bucket) := by
  obtain ⟨hl, hlen, hbound⟩ := hleg
  refine ⟨hl, by simp [hlen], ?_⟩
  intro x hx
  rcases set_take_mem b.entries entry v b.l x hx with h' | h'
  · subst h'
    exact hv
  · exact hbound x h'

/-! ### Filter-level basics -/

theorem xor_mod_involution (k a H : Nat) (ha : a < 2 ^ k) :
    (((a ^^^ H) % 2 ^ k) ^^^ H) % 2 ^ k = a := by
  apply Nat.eq_of_testBit_eq
  intro i
  simp only [Nat.testBit_mod_two_pow, Nat.testBit_xor]
  by_cases hik : i < k
  · simp only [hik, decide_True, Bool.true_and]
    cases a.testBit i <;> cases H.testBit i <;> rfl
  · simp only [hik, decide_False, Bool.false_and]
    exact (Nat.testBit_lt_two_pow (lt_of_lt_of_le ha
      (Nat.pow_le_pow_right (by norm_num) (by omega)))).symm

theorem setBucket_f (fl : Filter) (i : Nat) (b : bucket) : (fl.setBucket i b).f = fl.f := rfl

theorem setBucket_enc (fl : Filter) (i : Nat) (b : bucket) :
    (fl.setBucket i b).bucketEncoding = fl.bucketEncoding := rfl

theorem setBucket_count (fl : Filter) (i : Nat) (b : bucket) :
    (fl.setBucket i b).count = fl.count := rfl

theorem setBucket_overflowed (fl : Filter) (i : Nat) (b : bucket) :
    (fl.setBucket i b).overflowed = fl.overflowed := rfl

theorem setBucket_nBuckets (fl : Filter) (i : Nat) (b : bucket) :
    (fl.setBucket i b).nBuckets = fl.nBuckets := by
  simp [Filter.setBucket, Filter.nBuckets, BitStore.set, BitStore.len]

theorem otherIdx_congr (fl fl' : Filter) (h : fl.nBuckets = fl'.nBuckets) (g i : Nat) :
    fl.otherIdx g i = fl'.otherIdx g i := by
  simp [Filter.otherIdx, Filter.hashFingerprint, h]

theorem itemToIdxs_congr (fl fl' : Filter) (hn : fl.nBuckets = fl'.nBuckets)
    (hf : fl.f = fl'.f) (x : List Nat) : fl.itemToIdxs x = fl'.itemToIdxs x := by
  simp [Filter.itemToIdxs, Filter.hashItem, Filter.hashToFingerprint, Filter.otherIdx,
    Filter.hashFingerprint, hn, hf]

theorem getBucket_setBucket_self (fl : Filter) (i : Nat) (b : bucket) (h : i < fl.nBuckets) :
    (fl.setBucket i b).getBucket i = fl.bucketEncoding.decode (fl.bucketEncoding.encode b) := by
  simp only [Filter.getBucket, Filter.setBucket, BitStore.get, BitStore.set]
  rw [List.getD_eq_getElem?_getD, List.getElem?_set]
  simp only [Filter.nBuckets, BitStore.len] at h
  simp [h]

theorem getBucket_setBucket_ne (fl : Filter) (i : Nat) (b : bucket) (j : Nat) (h : j ≠ i) :
    (fl.setBucket i b).getBucket j = fl.getBucket j := by
  simp only [Filter.getBucket, Filter.setBucket, BitStore.get, BitStore.set]
  rw [List.getD_eq_getElem?_getD, List.getElem?_set, if_neg (fun hh => h hh.symm),
    ← List.getD_eq_getElem?_getD]

theorem getBucket_legal (fl : Filter) (henc : encOK fl.bucketEncoding fl.f) (i : Nat) :
    legalB fl.f fl.bucketEncoding.cap (fl.getBucket i) :=
  decode_legal _ _ henc _

theorem fingerprintLoop_range (fw hash : Nat) (hfw : 1 ≤ fw) : ∀ (fuel shift : Nat),
    1 ≤ fingerprintLoop fw hash ((1 <<< fw) - 1) shift fuel ∧
    fingerprintLoop fw hash ((1 <<< fw) - 1) shift fuel < 2 ^ fw := by
  have hmask : (1 <<< fw) - 1 = 2 ^ fw - 1 := by rw [Nat.shiftLeft_eq, one_mul]
  have hpow : 2 ≤ 2 ^ fw := by
    calc (2 : Nat) = 2 ^ 1 := rfl
      _ ≤ 2 ^ fw := Nat.pow_le_pow_right (by norm_num) hfw
  intro fuel
  induction fuel with
  | zero =>
    intro shift
    constructor <;> simp [fingerprintLoop] <;> omega
  | succ fuel ih =>
    intro shift
    simp only [fingerprintLoop]
    split_ifs with h1 h2
    · have hle : (hash >>> shift) &&& ((1 <<< fw) - 1) ≤ 2 ^ fw - 1 := by
        rw [hmask]
        exact Nat.and_le_right
      omega
    · exact ih (shift - fw)
    · omega

theorem hashToFingerprint_range (fl : Filter) (h : 1 ≤ fl.f) (hash : Nat) :
    1 ≤ fl.hashToFingerprint hash ∧ fl.hashToFingerprint hash < 2 ^ fl.f :=
  fingerprintLoop_range fl.f hash h 32 (64 - fl.f)

theorem otherIdx_lt (fl : Filter) (h : 0 < fl.nBuckets) (g i : Nat) :
    fl.otherIdx g i < fl.nBuckets := Nat.mod_lt _ h

theorem otherIdx_involution (fl : Filter) (k : Nat) (hk : fl.nBuckets = 2 ^ k)
    (g i : Nat) (hi : i < fl.nBuckets) : fl.otherIdx g (fl.otherIdx g i) = i := by
  unfold Filter.otherIdx
  rw [hk] at hi ⊢
  exact xor_mod_involution k i _ hi

/-- Well-formedness: the bucket count is the power of two `NewRaw` rounds to,
and the encoding's parameters match the filter's fingerprint width. -/
def Filter.WF (fl : Filter) : Prop :=
  (∃ k, fl.nBuckets = 2 ^ k) ∧ encOK fl.bucketEncoding fl.f

theorem WF_setBucket (fl : Filter) (i : Nat) (b : bucket) (h : fl.WF) :
    (fl.setBucket i b).WF := by
  obtain ⟨⟨k, hk⟩, henc⟩ := h
  exact ⟨⟨k, by rw [setBucket_nBuckets, hk]⟩, henc⟩

theorem WF_nBuckets_pos (fl : Filter) (h : fl.WF) : 0 < fl.nBuckets := by
  obtain ⟨⟨k, hk⟩, _⟩ := h
  rw [hk]
  exact Nat.two_pow_pos k

/-! ### The no-false-negative invariant -/

/-- The fingerprint `tf` is stored in one of its two candidate buckets. -/
def present (fl : Filter) (tf i1 i2 : Nat) : Prop :=
  (fl.getBucket i1).containsF tf = true ∨ (fl.getBucket i2).containsF tf = true

theorem present_preserved_setBucket (fl : Filter) (henc : encOK fl.bucketEncoding fl.f)
    (tf i1 i2 j : Nat) (hj : j < fl.nBuckets) (bnew : bucket)
    (hleg : legalB fl.f fl.bucketEncoding.cap bnew)
    (hnew : (fl.getBucket j).containsF tf = true → bnew.containsF tf = true)
    (hpr : present fl tf i1 i2) :
    present (fl.setBucket j bnew) tf i1 i2 := by
  rcases hpr with h | h
  · by_cases hij : i1 = j
    · left
      subst hij
      rw [getBucket_setBucket_self _ _ _ hj, containsF_roundtrip _ _ henc _ hleg]
      exact hnew h
    · left
      rw [getBucket_setBucket_ne _ _ _ _ hij]
      exact h
  · by_cases hij : i2 = j
    · right
      subst hij
      rw [getBucket_setBucket_self _ _ _ hj, containsF_roundtrip _ _ henc _ hleg]
      exact hnew h
    · right
      rw [getBucket_setBucket_ne _ _ _ _ hij]
      exact h

theorem present_estab_setBucket (fl : Filter) (henc : encOK fl.bucketEncoding fl.f)
    (tf i1 i2 j : Nat) (hj : j < fl.nBuckets) (hjc : j = i1 ∨ j = i2) (bnew : bucket)
    (hleg : legalB fl.f fl.bucketEncoding.cap bnew) (hnew : bnew.containsF tf = true) :
    present (fl.setBucket j bnew) tf i1 i2 := by
  rcases hjc with h | h
  · left
    subst h
    rw [getBucket_setBucket_self _ _ _ hj, containsF_roundtrip _ _ henc _ hleg]
    exact hnew
  · right
    subst h
    rw [getBucket_setBucket_self _ _ _ hj, containsF_roundtrip _ _ henc _ hleg]
    exact hnew

theorem present_setBucket_other (fl : Filter) (tf i1 i2 j : Nat)
    (h1 : j ≠ i1) (h2 : j ≠ i2) (bnew : bucket) (hpr : present fl tf i1 i2) :
    present (fl.setBucket j bnew) tf i1 i2 := by
  rcases hpr with h | h
  · left
    rw [getBucket_setBucket_ne _ _ _ _ (fun hh => h1 hh.symm)]
    exact h
  · right
    rw [getBucket_setBucket_ne _ _ _ _ (fun hh => h2 hh.symm)]
    exact h

/-- Through the whole eviction walk, either the tracked fingerprint `tf` stays
in one of its candidate buckets, or it is the fingerprint currently carried
and the walk is standing at one of its candidate buckets; on exit the walk
either placed everything (so `tf` is present) or overflowed the filter. -/
theorem kickLoop_invariant : ∀ (fuel : Nat) (fl : Filter) (fp i : Nat) (rnd : List Nat)
    (tf i1 i2 : Nat),
    fl.WF →
    i < fl.nBuckets → i1 < fl.nBuckets → i2 = fl.otherIdx tf i1 →
    tf ≠ 0 → fp < 2 ^ fl.f →
    (present fl tf i1 i2 ∨ (fp = tf ∧ (i = i1 ∨ i = i2))) →
    present (fl.kickLoop fp i rnd fuel) tf i1 i2 ∨
      (fl.kickLoop fp i rnd fuel).overflowed = true := by
  intro fuel
  induction fuel with
  | zero =>
    intro fl fp i rnd tf i1 i2 _ _ _ _ _ _ _
    right
    rfl
  | succ fuel ih =>
    intro fl fp i rnd tf i1 i2 hWF hi hi1 hi2 htf hfp hinv
    obtain ⟨⟨k, hk⟩, henc⟩ := hWF
    have hWF : fl.WF := ⟨⟨k, hk⟩, henc⟩
    have hnpos : 0 < fl.nBuckets := WF_nBuckets_pos fl hWF
    simp only [Filter.kickLoop]
    set b := fl.getBucket i with hb
    set entry := rnd.getD 0 0 % b.l with hentry
    set evicted := b.entries.getD entry 0 with hevicted
    set b2 : bucket := { b with entries := b.entries.set entry fp } with hb2
    set fl2 := fl.setBucket i b2 with hfl2
    set i2' := fl2.otherIdx evicted i with hi2'
    set b3 := fl2.getBucket i2' with hb3
    have hbleg : legalB fl.f fl.bucketEncoding.cap b := getBucket_legal fl henc i
    have hlpos : 0 < b.l := by
      rw [hbleg.1]
      exact cap_pos _ _ henc
    have hentry_lt : entry < b.l := Nat.mod_lt _ hlpos
    have hentry_len : entry < b.entries.length := by
      have h8 := cap_le_eight _ _ henc
      have hbl := hbleg.1
      have hblen := hbleg.2.1
      omega
    have hev_mem : evicted ∈ b.entries.take b.l := by
      rw [hevicted, List.getD_eq_getElem _ _ hentry_len]
      refine List.mem_iff_getElem.mpr ⟨entry, ?_, ?_⟩
      · simp only [List.length_take, lt_min_iff]
        exact ⟨hentry_lt, hentry_len⟩
      · exact List.getElem_take _
    have hev : evicted < 2 ^ fl.f := hbleg.2.2 _ hev_mem
    have hb2leg : legalB fl.f fl.bucketEncoding.cap b2 :=
      bucket_set_legal _ _ b hbleg entry fp hfp
    have hfl2WF : fl2.WF := WF_setBucket _ _ _ hWF
    have hfl2n : fl2.nBuckets = fl.nBuckets := setBucket_nBuckets _ _ _
    have hio : ∀ g j, fl2.otherIdx g j = fl.otherIdx g j := fun g j =>
      otherIdx_congr _ _ hfl2n g j
    have hi2'lt : i2' < fl.nBuckets := by
      rw [hi2', hio]
      exact otherIdx_lt fl hnpos _ _
    have hinv2 : present fl2 tf i1 i2 ∨ (evicted = tf ∧ (i2' = i1 ∨ i2' = i2)) := by
      rcases hinv with hpr | ⟨hfpt, hii⟩
      · by_cases hii : i = i1 ∨ i = i2
        · by_cases hevt : evicted = tf
          · right
            refine ⟨hevt, ?_⟩
            rw [hi2', hio, hevt]
            rcases hii with h | h
            · subst h
              exact Or.inr hi2.symm
            · subst h
              rw [hi2]
              exact Or.inl (otherIdx_involution fl k hk tf i1 hi1)
          · left
            refine present_preserved_setBucket fl henc tf i1 i2 i hi b2 hb2leg ?_ hpr
            intro hc
            exact bucket_set_preserve b entry fp tf (fun hh => hevt (hevicted ▸ hh)) hc
        · left
          exact present_setBucket_other fl tf i1 i2 i
            (fun h => hii (Or.inl h)) (fun h => hii (Or.inr h)) b2 hpr
      · left
        refine present_estab_setBucket fl henc tf i1 i2 i hi hii b2 hb2leg ?_
        rw [← hfpt]
        exact bucket_set_contains_self b entry fp hentry_lt hentry_len
    by_cases hempty : b3.hasEmpty = true
    · rw [if_pos hempty]
      left
      have hb3leg : legalB fl2.f fl2.bucketEncoding.cap b3 := getBucket_legal fl2 henc i2'
      have haddleg : legalB fl2.f fl2.bucketEncoding.cap (b3.add evicted) :=
        bucket_add_legal _ _ _ hb3leg evicted hev
      rcases hinv2 with hpr2 | ⟨hevt, hc⟩
      · refine present_preserved_setBucket fl2 henc tf i1 i2 i2'
          (by rw [hfl2n]; exact hi2'lt) _ haddleg ?_ hpr2
        intro hcc
        exact bucket_add_preserve b3 evicted tf htf hcc
      · refine present_estab_setBucket fl2 henc tf i1 i2 i2'
          (by rw [hfl2n]; exact hi2'lt) hc _ haddleg ?_
        rw [← hevt]
        exact bucket_add_contains_self b3 evicted hempty
    · rw [if_neg hempty]
      exact ih fl2 evicted i2' (rnd.drop 1) tf i1 i2 hfl2WF
        (by rw [hfl2n]; exact hi2'lt) (by rw [hfl2n]; exact hi1)
        (by rw [hio]; exact hi2) htf hev hinv2

/-! ### Operation effects -/

theorem kickLoop_params : ∀ (fuel : Nat) (fl : Filter) (fp i : Nat) (rnd : List Nat),
    (fl.kickLoop fp i rnd fuel).f = fl.f ∧
    (fl.kickLoop fp i rnd fuel).nBuckets = fl.nBuckets ∧
    (fl.kickLoop fp i rnd fuel).bucketEncoding = fl.bucketEncoding ∧
    (fl.kickLoop fp i rnd fuel).count = fl.count := by
  intro fuel
  induction fuel with
  | zero =>
    intro fl fp i rnd
    exact ⟨rfl, rfl, rfl, rfl⟩
  | succ fuel ih =>
    intro fl fp i rnd
    simp only [Filter.kickLoop]
    split_ifs
    · exact ⟨rfl, by rw [setBucket_nBuckets, setBucket_nBuckets], rfl, rfl⟩
    · obtain ⟨h1, h2, h3, h4⟩ := ih (fl.setBucket i _) _ _ (rnd.drop 1)
      exact ⟨h1, by rw [h2, setBucket_nBuckets], h3, h4⟩

theorem Add_params (fl : Filter) (x rnd : List Nat) :
    (fl.Add x rnd).f = fl.f ∧ (fl.Add x rnd).nBuckets = fl.nBuckets ∧
    (fl.Add x rnd).bucketEncoding = fl.bucketEncoding ∧
    (fl.Add x rnd).count = fl.count + 1 := by
  simp only [Filter.Add]
  split_ifs <;>
    first
      | exact ⟨rfl, rfl, rfl, rfl⟩
      | exact ⟨rfl, by rw [setBucket_nBuckets]; rfl, rfl, rfl⟩
      | exact ⟨(kickLoop_params 500 _ _ _ _).1,
          by rw [(kickLoop_params 500 _ _ _ _).2.1]; rfl,
          (kickLoop_params 500 _ _ _ _).2.2.1,
          (kickLoop_params 500 _ _ _ _).2.2.2⟩

theorem Delete_params (fl : Filter) (x : List Nat) :
    (fl.Delete x).1.f = fl.f ∧ (fl.Delete x).1.nBuckets = fl.nBuckets ∧
    (fl.Delete x).1.bucketEncoding = fl.bucketEncoding ∧
    (fl.Delete x).1.count = fl.count - 1 ∧
    (fl.Delete x).1.overflowed = fl.overflowed := by
  simp only [Filter.Delete]
  split_ifs
  · exact ⟨rfl, rfl, rfl, rfl, rfl⟩
  · exact ⟨rfl, by rw [setBucket_nBuckets]; rfl, rfl, rfl, rfl⟩
  · exact ⟨rfl, by rw [setBucket_nBuckets]; rfl, rfl, rfl, rfl⟩
  · exact ⟨rfl, rfl, rfl, rfl, rfl⟩

theorem Add_overflow_sticky (fl : Filter) (x rnd : List Nat) (h : fl.overflowed = true) :
    (fl.Add x rnd).overflowed = true := by
  simp only [Filter.Add]
  rw [if_pos]
  · exact h
  · exact h

theorem WF_of_params (fl fl' : Filter) (hn : fl'.nBuckets = fl.nBuckets)
    (he : fl'.bucketEncoding = fl.bucketEncoding) (hf : fl'.f = fl.f) (h : fl.WF) :
    fl'.WF := by
  unfold Filter.WF at h ⊢
  rw [hn, he, hf]
  exact h

theorem itemToIdxs_i1_lt (fl : Filter) (h : 0 < fl.nBuckets) (x : List Nat) :
    (fl.itemToIdxs x).2.1 < fl.nBuckets :=
  Nat.mod_lt _ h

theorem itemToIdxs_i2_eq (fl : Filter) (x : List Nat) :
    (fl.itemToIdxs x).2.2 = fl.otherIdx (fl.itemToIdxs x).1 (fl.itemToIdxs x).2.1 :=
  rfl

theorem itemToIdxs_fp_range (fl : Filter) (h : 1 ≤ fl.f) (x : List Nat) :
    1 ≤ (fl.itemToIdxs x).1 ∧ (fl.itemToIdxs x).1 < 2 ^ fl.f :=
  hashToFingerprint_range fl h _

/-- Effect of `Add` on the tracked fingerprint: either `tf` was already
present in its candidate buckets (and any eviction walk keeps it reachable, or
overflows), or the very item being added hashes to `(tf, i1, i2)` on a
non-overflowed filter and the call places it (or overflows). -/
theorem Add_effect (fl : Filter) (x rnd : List Nat) (tf i1 i2 : Nat)
    (hWF : fl.WF) (hi1 : i1 < fl.nBuckets) (hi2 : i2 = fl.otherIdx tf i1)
    (htf : tf ≠ 0) (htf2 : tf < 2 ^ fl.f)
    (hinv : present fl tf i1 i2 ∨
      (fl.overflowed = false ∧ fl.itemToIdxs x = (tf, i1, i2))) :
    present (fl.Add x rnd) tf i1 i2 ∨ (fl.Add x rnd).overflowed = true := by
  obtain ⟨⟨k, hk⟩, henc⟩ := hWF
  have hWF : fl.WF := ⟨⟨k, hk⟩, henc⟩
  have hnpos : 0 < fl.nBuckets := WF_nBuckets_pos fl hWF
  have hf1 : 1 ≤ fl.f := by
    cases hfe : fl.bucketEncoding with
    | direct e =>
      rw [hfe] at henc
      obtain ⟨h1, h2, _⟩ := henc
      omega
    | packed e =>
      rw [hfe] at henc
      obtain ⟨h1, h2, _⟩ := henc
      omega
  simp only [Filter.Add]
  set fl1 : Filter := { fl with count := fl.count + 1 } with hfl1
  have h1WF : fl1.WF := hWF
  have h1enc : encOK fl1.bucketEncoding fl1.f := henc
  have h1n : fl1.nBuckets = fl.nBuckets := rfl
  have h1pos : 0 < fl1.nBuckets := hnpos
  have h1i1 : i1 < fl1.nBuckets := hi1
  have h1i2 : i2 = fl1.otherIdx tf i1 := hi2
  have h1tf2 : tf < 2 ^ fl1.f := htf2
  have h1it : fl1.itemToIdxs x = fl.itemToIdxs x := rfl
  have h1pr : present fl tf i1 i2 → present fl1 tf i1 i2 := fun h => h
  by_cases hov : fl1.overflowed = true
  · rw [if_pos hov]
    rcases hinv with hpr | ⟨hno, _⟩
    · exact Or.inl (h1pr hpr)
    · rw [show fl1.overflowed = fl.overflowed from rfl, hno] at hov
      exact Bool.noConfusion hov
  · rw [if_neg hov]
    have hjlt : (fl1.itemToIdxs x).2.1 < fl1.nBuckets := itemToIdxs_i1_lt fl1 h1pos x
    have hj2lt : (fl1.itemToIdxs x).2.2 < fl1.nBuckets := by
      rw [itemToIdxs_i2_eq]
      exact otherIdx_lt fl1 h1pos _ _
    have hg2 : (fl1.itemToIdxs x).1 < 2 ^ fl1.f := (itemToIdxs_fp_range fl1 hf1 x).2
    have hb1leg : legalB fl1.f fl1.bucketEncoding.cap (fl1.getBucket (fl1.itemToIdxs x).2.1) :=
      getBucket_legal fl1 h1enc _
    have hb2leg : legalB fl1.f fl1.bucketEncoding.cap (fl1.getBucket (fl1.itemToIdxs x).2.2) :=
      getBucket_legal fl1 h1enc _
    have hdisp : present fl1 tf i1 i2 ∨ (fl1.itemToIdxs x = (tf, i1, i2)) := by
      rcases hinv with hpr | ⟨_, ht⟩
      · exact Or.inl (h1pr hpr)
      · exact Or.inr (by rw [h1it, ht])
    split_ifs with hemp1 hemp2 hr
    · rcases hdisp with hpr | ht
      · exact Or.inl (present_preserved_setBucket fl1 h1enc tf i1 i2 _ hjlt _
          (bucket_add_legal _ _ _ hb1leg _ hg2)
          (fun hc => bucket_add_preserve _ _ tf htf hc) hpr)
      · left
        have hfp1 : (fl1.itemToIdxs x).1 = tf := by rw [ht]
        have hfp2 : (fl1.itemToIdxs x).2.1 = i1 := by rw [ht]
        refine present_estab_setBucket fl1 h1enc tf i1 i2 _ hjlt (Or.inl hfp2) _
          (bucket_add_legal _ _ _ hb1leg _ hg2) ?_
        rw [← hfp1]
        exact bucket_add_contains_self _ _ hemp1
    · rcases hdisp with hpr | ht
      · exact Or.inl (present_preserved_setBucket fl1 h1enc tf i1 i2 _ hj2lt _
          (bucket_add_legal _ _ _ hb2leg _ hg2)
          (fun hc => bucket_add_preserve _ _ tf htf hc) hpr)
      · left
        have hfp1 : (fl1.itemToIdxs x).1 = tf := by rw [ht]
        have hfp2 : (fl1.itemToIdxs x).2.2 = i2 := by rw [ht]
        refine present_estab_setBucket fl1 h1enc tf i1 i2 _ hj2lt (Or.inr hfp2) _
          (bucket_add_legal _ _ _ hb2leg _ hg2) ?_
        rw [← hfp1]
        exact bucket_add_contains_self _ _ hemp2
    · apply kickLoop_invariant 500 fl1 (fl1.itemToIdxs x).1 _ (rnd.drop 1) tf i1 i2 h1WF
        hjlt h1i1 h1i2 htf hg2
      rcases hdisp with hpr | ht
      · exact Or.inl hpr
      · exact Or.inr ⟨by rw [ht], Or.inl (by rw [ht])⟩
    · apply kickLoop_invariant 500 fl1 (fl1.itemToIdxs x).1 _ (rnd.drop 1) tf i1 i2 h1WF
        hj2lt h1i1 h1i2 htf hg2
      rcases hdisp with hpr | ht
      · exact Or.inl hpr
      · exact Or.inr ⟨by rw [ht], Or.inr (by rw [ht])⟩

/-- Effect of `Delete` of an item `y` on a tracked fingerprint `tf`, when the
deletion does not target `tf` in a shared candidate bucket: presence of `tf`
is preserved.  (A `Delete` with `y`'s fingerprint equal to `tf` and a shared
candidate bucket is exactly the excluded "removes x's fingerprint" case.) -/
theorem Delete_preserves (fl : Filter) (y : List Nat) (tf i1 i2 : Nat)
    (hWF : fl.WF) (hi1 : i1 < fl.nBuckets) (hi2 : i2 = fl.otherIdx tf i1)
    (htf : tf ≠ 0)
    (hguard : (fl.itemToIdxs y).1 ≠ tf ∨
      ((fl.itemToIdxs y).2.1 ≠ i1 ∧ (fl.itemToIdxs y).2.1 ≠ i2))
    (hpr : present fl tf i1 i2) :
    present (fl.Delete y).1 tf i1 i2 := by
  obtain ⟨⟨k, hk⟩, henc⟩ := hWF
  have hWF : fl.WF := ⟨⟨k, hk⟩, henc⟩
  have hnpos : 0 < fl.nBuckets := WF_nBuckets_pos fl hWF
  simp only [Filter.Delete]
  set fl1 : Filter := { fl with count := fl.count - 1 } with hfl1
  have h1enc : encOK fl1.bucketEncoding fl1.f := henc
  have h1pos : 0 < fl1.nBuckets := hnpos
  have h1pr : present fl1 tf i1 i2 := hpr
  have h1it : fl1.itemToIdxs y = fl.itemToIdxs y := rfl
  by_cases hov : fl1.overflowed = true
  · rw [if_pos hov]
    exact h1pr
  · rw [if_neg hov]
    have hjlt : (fl1.itemToIdxs y).2.1 < fl1.nBuckets := itemToIdxs_i1_lt fl1 h1pos y
    have hj2lt : (fl1.itemToIdxs y).2.2 < fl1.nBuckets := by
      rw [itemToIdxs_i2_eq]
      exact otherIdx_lt fl1 h1pos _ _
    have hb1leg : legalB fl1.f fl1.bucketEncoding.cap (fl1.getBucket (fl1.itemToIdxs y).2.1) :=
      getBucket_legal fl1 h1enc _
    have hb2leg : legalB fl1.f fl1.bucketEncoding.cap (fl1.getBucket (fl1.itemToIdxs y).2.2) :=
      getBucket_legal fl1 h1enc _
    split_ifs with hc1 hc2
    · -- cleared slots equal to y's fingerprint in bucket j1
      show present (fl1.setBucket (fl1.itemToIdxs y).2.1
        ((fl1.getBucket (fl1.itemToIdxs y).2.1).delete (fl1.itemToIdxs y).1)) tf i1 i2
      by_cases hgt : (fl.itemToIdxs y).1 = tf
      · rcases hguard with h | ⟨hne1, hne2⟩
        · exact absurd hgt h
        · exact present_setBucket_other fl1 tf i1 i2 _ hne1 hne2 _ h1pr
      · refine present_preserved_setBucket fl1 h1enc tf i1 i2 _ hjlt _
          (bucket_delete_legal _ _ _ hb1leg _) ?_ h1pr
        intro hc
        exact bucket_delete_preserve _ _ tf (fun hh => hgt (by rw [← h1it]; exact hh.symm)) hc
    · -- cleared in bucket j2
      show present (fl1.setBucket (fl1.itemToIdxs y).2.2
        ((fl1.getBucket (fl1.itemToIdxs y).2.2).delete (fl1.itemToIdxs y).1)) tf i1 i2
      by_cases hgt : (fl.itemToIdxs y).1 = tf
      · rcases hguard with h | ⟨hne1, hne2⟩
        · exact absurd hgt h
        · -- j2 is also outside x's candidate pair, by the xor involution
          have hj2 : (fl1.itemToIdxs y).2.2 = fl.otherIdx tf (fl.itemToIdxs y).2.1 := by
            rw [itemToIdxs_i2_eq, h1it, ← hgt]
            rfl
          have hj1lt' : (fl.itemToIdxs y).2.1 < fl.nBuckets := itemToIdxs_i1_lt fl hnpos y
          have hne1' : (fl1.itemToIdxs y).2.2 ≠ i1 := by
            intro hh
            apply hne2
            have : fl.otherIdx tf (fl.itemToIdxs y).2.1 = i1 := by rw [← hj2, hh]
            have h2 : fl.otherIdx tf (fl.otherIdx tf (fl.itemToIdxs y).2.1)
                = fl.otherIdx tf i1 := by rw [this]
            rw [otherIdx_involution fl k hk tf _ hj1lt'] at h2
            rw [h2, ← hi2]
          have hne2' : (fl1.itemToIdxs y).2.2 ≠ i2 := by
            intro hh
            apply hne1
            have : fl.otherIdx tf (fl.itemToIdxs y).2.1 = i2 := by rw [← hj2, hh]
            have h2 : fl.otherIdx tf (fl.otherIdx tf (fl.itemToIdxs y).2.1)
                = fl.otherIdx tf i2 := by rw [this]
            rw [otherIdx_involution fl k hk tf _ hj1lt'] at h2
            rw [hi2, otherIdx_involution fl k hk tf i1 hi1] at h2
            exact h2
          exact present_setBucket_other fl1 tf i1 i2 _ hne1' hne2' _ h1pr
      · refine present_preserved_setBucket fl1 h1enc tf i1 i2 _ hj2lt _
          (bucket_delete_legal _ _ _ hb2leg _) ?_ h1pr
        intro hc
        exact bucket_delete_preserve _ _ tf (fun hh => hgt (by rw [← h1it]; exact hh.symm)) hc
    · -- fingerprint absent from both buckets: only the count changed
      exact h1pr

/-- Guard on an operation, relative to the item `x` being tracked: a `Delete`
must not remove `x`'s fingerprint, i.e. it either deletes a different
fingerprint or touches neither of `x`'s candidate buckets. -/
def deleteOK (fl : Filter) (x : List Nat) : Op → Prop
  | .del y => (fl.itemToIdxs y).1 ≠ (fl.itemToIdxs x).1 ∨
      ((fl.itemToIdxs y).2.1 ≠ (fl.itemToIdxs x).2.1 ∧
        (fl.itemToIdxs y).2.1 ≠ (fl.itemToIdxs x).2.2)
  | _ => True

theorem Delete_overflow_sticky (fl : Filter) (y : List Nat) (h : fl.overflowed = true) :
    (fl.Delete y).1.overflowed = true := by
  have := (Delete_params fl y).2.2.2.2
  rw [this]
  exact h

theorem applyOp_params (fl : Filter) (op : Op) :
    (applyOp fl op).f = fl.f ∧ (applyOp fl op).nBuckets = fl.nBuckets ∧
    (applyOp fl op).bucketEncoding = fl.bucketEncoding := by
  cases op with
  | add x rnd =>
    obtain ⟨h1, h2, h3, _⟩ := Add_params fl x rnd
    exact ⟨h1, h2, h3⟩
  | del y =>
    obtain ⟨h1, h2, h3, _, _⟩ := Delete_params fl y
    exact ⟨h1, h2, h3⟩
  | query _ => exact ⟨rfl, rfl, rfl⟩

theorem applyOp_overflow_sticky (fl : Filter) (op : Op) (h : fl.overflowed = true) :
    (applyOp fl op).overflowed = true := by
  cases op with
  | add x rnd => exact Add_overflow_sticky fl x rnd h
  | del y => exact Delete_overflow_sticky fl y h
  | query _ => exact h

theorem applyOps_overflow_sticky (fl : Filter) (ops : List Op) (h : fl.overflowed = true) :
    (applyOps fl ops).overflowed = true := by
  induction ops generalizing fl with
  | nil => exact h
  | cons op ops ih => exact ih (applyOp fl op) (applyOp_overflow_sticky fl op h)

theorem applyOps_params (fl : Filter) (ops : List Op) :
    (applyOps fl ops).f = fl.f ∧ (applyOps fl ops).nBuckets = fl.nBuckets ∧
    (applyOps fl ops).bucketEncoding = fl.bucketEncoding := by
  induction ops generalizing fl with
  | nil => exact ⟨rfl, rfl, rfl⟩
  | cons op ops ih =>
    obtain ⟨h1, h2, h3⟩ := ih (applyOp fl op)
    obtain ⟨g1, g2, g3⟩ := applyOp_params fl op
    exact ⟨by rw [show applyOps fl (op :: ops) = applyOps (applyOp fl op) ops from rfl, h1, g1],
      by rw [show applyOps fl (op :: ops) = applyOps (applyOp fl op) ops from rfl, h2, g2],
      by rw [show applyOps fl (op :: ops) = applyOps (applyOp fl op) ops from rfl, h3, g3]⟩

theorem encOK_f_pos (enc : bucketEncoding) (fw : Nat) (h : encOK enc fw) : 1 ≤ fw := by
  cases enc with
  | direct e =>
    obtain ⟨h1, h2, _⟩ := h
    omega
  | packed e =>
    obtain ⟨h1, h2, _⟩ := h
    omega

theorem applyOp_preserves (fl0 fl : Filter) (x : List Nat) (op : Op) (tf i1 i2 : Nat)
    (ht : fl0.itemToIdxs x = (tf, i1, i2))
    (hWF : fl.WF) (hn : fl.nBuckets = fl0.nBuckets) (hf : fl.f = fl0.f)
    (hi1 : i1 < fl.nBuckets) (hi2 : i2 = fl.otherIdx tf i1)
    (htf : tf ≠ 0) (htf2 : tf < 2 ^ fl.f)
    (hg : deleteOK fl0 x op)
    (h : present fl tf i1 i2 ∨ fl.overflowed = true) :
    present (applyOp fl op) tf i1 i2 ∨ (applyOp fl op).overflowed = true := by
  rcases h with hpr | hov
  · cases op with
    | add y rnd =>
      exact Add_effect fl y rnd tf i1 i2 hWF hi1 hi2 htf htf2 (Or.inl hpr)
    | del y =>
      left
      refine Delete_preserves fl y tf i1 i2 hWF hi1 hi2 htf ?_ hpr
      have hit : fl.itemToIdxs y = fl0.itemToIdxs y := itemToIdxs_congr fl fl0 hn hf y
      simp only [deleteOK] at hg
      rw [hit]
      rw [ht] at hg
      simpa using hg
    | query _ => exact Or.inl hpr
  · right
    exact applyOp_overflow_sticky fl op hov

theorem applyOps_invariant (fl0 : Filter) (x : List Nat) (tf i1 i2 : Nat)
    (ht : fl0.itemToIdxs x = (tf, i1, i2)) (htf : tf ≠ 0) (htf2 : tf < 2 ^ fl0.f) :
    ∀ (ops : List Op) (fl : Filter),
    fl.WF → fl.nBuckets = fl0.nBuckets → fl.f = fl0.f →
    i1 < fl.nBuckets → i2 = fl.otherIdx tf i1 →
    (∀ op ∈ ops, deleteOK fl0 x op) →
    (present fl tf i1 i2 ∨ fl.overflowed = true) →
    present (applyOps fl ops) tf i1 i2 ∨ (applyOps fl ops).overflowed = true := by
  intro ops
  induction ops with
  | nil =>
    intro fl _ _ _ _ _ _ h
    exact h
  | cons op ops ih =>
    intro fl hWF hn hf hi1 hi2 hgs h
    have hstep := applyOp_preserves fl0 fl x op tf i1 i2 ht hWF hn hf hi1 hi2 htf
      (by rw [hf]; exact htf2) (hgs op (List.mem_cons_self _ _)) h
    obtain ⟨hpf, hpn, hpe⟩ := applyOp_params fl op
    show present (applyOps (applyOp fl op) ops) tf i1 i2 ∨
      (applyOps (applyOp fl op) ops).overflowed = true
    exact ih (applyOp fl op) (WF_of_params fl _ hpn hpe hpf hWF)
      (by rw [hpn, hn]) (by rw [hpf, hf])
      (by rw [hpn]; exact hi1)
      (by rw [otherIdx_congr (applyOp fl op) fl hpn]; exact hi2)
      (fun o ho => hgs o (List.mem_cons_of_mem _ ho)) hstep

theorem Contains_of_present (fl : Filter) (x : List Nat) (tf i1 i2 : Nat)
    (ht : fl.itemToIdxs x = (tf, i1, i2))
    (h : present fl tf i1 i2 ∨ fl.overflowed = true) :
    fl.Contains x = Result.Maybe := by
  simp only [Filter.Contains]
  have e1 : (fl.itemToIdxs x).1 = tf := by rw [ht]
  have e2 : (fl.itemToIdxs x).2.1 = i1 := by rw [ht]
  have e3 : (fl.itemToIdxs x).2.2 = i2 := by rw [ht]
  by_cases hov : fl.overflowed = true
  · rw [if_pos hov]
  · rw [if_neg hov, e1, e2, e3]
    rcases h with hpr | hq
    · split_ifs with h1 h2
      · rfl
      · rfl
      · rcases hpr with hp | hp
        · exact absurd hp h1
        · exact absurd hp h2
    · exact absurd hq hov

/-! ### The fingerprint window lists (for the fingerprint-derivation claim) -/

/-- The fingerprint derivation as the spec describes it: scan all
non-overlapping `f`-bit windows of the 64-bit hash from the most-significant
end downward (for `f` dividing 64 this includes the window at bit 0), take
the first nonzero value, defaulting to `1`. -/
def specFingerprintC6 (f h : Nat) : Nat :=
  ((((List.range' 1 (64 / f)).map (fun m => (h >>> (64 - f * m)) &&& (2 ^ f - 1)))).find?
    (fun w => w != 0)).getD 1

/-- The windows the code actually examines: only those at strictly positive
shifts `64 - f*m > 0`.  The window covering bit 0 is never read (those bits
feed `index1`). -/
def codeWindows (f h : Nat) : List Nat :=
  (List.range' 1 (63 / f)).map (fun m => (h >>> (64 - f * m)) &&& (2 ^ f - 1))

theorem fingerprintLoop_eq_windows (f hash : Nat) (hf : 2 ≤ f) : ∀ (fuel m : Nat),
    1 ≤ m → 63 / f + 1 ≤ m + fuel →
    fingerprintLoop f hash ((1 <<< f) - 1) (64 - f * m) fuel
      = ((((List.range' m (63 / f + 1 - m)).map
          (fun j => (hash >>> (64 - f * j)) &&& (2 ^ f - 1)))).find? (fun w => w != 0)).getD 1 := by
  have hmask : (1 <<< f) - 1 = 2 ^ f - 1 := by rw [Nat.shiftLeft_eq, one_mul]
  intro fuel
  induction fuel with
  | zero =>
    intro m hm hfuel
    have hz : 63 / f + 1 - m = 0 := by omega
    rw [hz]
    rfl
  | succ fuel ih =>
    intro m hm hfuel
    by_cases hmle : m ≤ 63 / f
    · have hlt : f * m < 64 := by
        have := Nat.div_mul_le_self 63 f
        have h2 : f * m ≤ f * (63 / f) := Nat.mul_le_mul_left f hmle
        have h3 : f * (63 / f) = (63 / f) * f := Nat.mul_comm _ _
        omega
      have hshift : 0 < 64 - f * m := by omega
      have hsplit : 63 / f + 1 - m = (63 / f - m) + 1 := by omega
      rw [hsplit, List.range'_succ, List.map_cons]
      simp only [fingerprintLoop, if_pos hshift, hmask]
      by_cases hw : (hash >>> (64 - f * m)) &&& (2 ^ f - 1) = 0
      · rw [if_neg (by simpa using hw)]
        rw [List.find?_cons_of_neg _ (by simpa using hw)]
        have hstep : 64 - f * m - f = 64 - f * (m + 1) := by
          have hfm : f * (m + 1) = f * m + f := by ring
          omega
        rw [hstep]
        have hih := ih (m + 1) (by omega) (by omega)
        rw [hmask] at hih
        rw [show 63 / f + 1 - (m + 1) = 63 / f - m from by omega] at hih
        rw [hih]
      · rw [if_pos (by simpa using hw)]
        rw [List.find?_cons_of_pos _ (by simpa using hw)]
        rfl
    · have hge : 64 ≤ f * m := by
        by_contra hlt
        push_neg at hlt
        have hm63 : m * f ≤ 63 := by
          have hcm : f * m = m * f := Nat.mul_comm f m
          omega
        have hmm : m ≤ 63 / f := (Nat.le_div_iff_mul_le (by omega : 0 < f)).mpr hm63
        omega
      have hz : 63 / f + 1 - m = 0 := by omega
      rw [hz]
      have hshift : 64 - f * m = 0 := by omega
      rw [hshift]
      rfl

/-! ### Claim theorems -/

/-- A default filter used only to extract the value out of `Option Filter`
results of `NewRaw` at concrete parameters (all such uses are on `some`). -/
def defaultFilter : Filter :=
  { inner := ⟨[], 0⟩, bucketEncoding := .direct ⟨2, 1⟩, count := 0, overflowed := false, f := 2 }

/-- C1: for every item `x` successfully added to a non-overflowed well-formed
filter (the `Add` returned without exhausting the eviction budget, i.e.
without setting `overflowed`), after any subsequent sequence of `Add`,
`Delete` and `Contains` operations in which `x` is never deleted and no
`Delete` of another item removes `x`'s fingerprint from its candidate buckets
(`deleteOK`), `Contains x` returns `Maybe`: the filter has no false
negatives.  (If a later operation overflows the filter, `Contains` answers
`Maybe` unconditionally, so the conclusion holds a fortiori — the claim's
"never lost to overflow" hypothesis is not even needed.) -/
theorem C1_no_false_negatives (fl : Filter) (x rnd : List Nat) (ops : List Op)
    (hWF : fl.WF) (hov : fl.overflowed = false)
    (hsucc : (fl.Add x rnd).overflowed = false)
    (hguards : ∀ op ∈ ops, deleteOK fl x op) :
    (applyOps (fl.Add x rnd) ops).Contains x = Result.Maybe := by
  obtain ⟨⟨k, hk⟩, henc⟩ := hWF
  have hWF : fl.WF := ⟨⟨k, hk⟩, henc⟩
  have hnpos := WF_nBuckets_pos fl hWF
  have hf1 : 1 ≤ fl.f := encOK_f_pos _ _ henc
  have hrange := itemToIdxs_fp_range fl hf1 x
  have htf : (fl.itemToIdxs x).1 ≠ 0 := by omega
  have htf2 : (fl.itemToIdxs x).1 < 2 ^ fl.f := hrange.2
  have hi1lt : (fl.itemToIdxs x).2.1 < fl.nBuckets := itemToIdxs_i1_lt fl hnpos x
  have hi2eq : (fl.itemToIdxs x).2.2
      = fl.otherIdx (fl.itemToIdxs x).1 (fl.itemToIdxs x).2.1 := itemToIdxs_i2_eq fl x
  have ht : fl.itemToIdxs x
      = ((fl.itemToIdxs x).1, (fl.itemToIdxs x).2.1, (fl.itemToIdxs x).2.2) := rfl
  have hstep := Add_effect fl x rnd _ _ _ hWF hi1lt hi2eq htf htf2 (Or.inr ⟨hov, ht⟩)
  have hstart : present (fl.Add x rnd) (fl.itemToIdxs x).1 (fl.itemToIdxs x).2.1
      (fl.itemToIdxs x).2.2 := by
    rcases hstep with h | h
    · exact h
    · rw [hsucc] at h
      exact Bool.noConfusion h
  obtain ⟨haf, han, hae, _⟩ := Add_params fl x rnd
  have hfinal := applyOps_invariant fl x _ _ _ ht htf htf2 ops (fl.Add x rnd)
    (WF_of_params fl _ han hae haf hWF) han haf
    (by rw [han]; exact hi1lt)
    (by rw [otherIdx_congr (fl.Add x rnd) fl han]; exact hi2eq)
    hguards (Or.inl hstart)
  obtain ⟨hqf, hqn, hqe⟩ := applyOps_params (fl.Add x rnd) ops
  have hn' : (applyOps (fl.Add x rnd) ops).nBuckets = fl.nBuckets := by rw [hqn, han]
  have hf' : (applyOps (fl.Add x rnd) ops).f = fl.f := by rw [hqf, haf]
  have htq : (applyOps (fl.Add x rnd) ops).itemToIdxs x = fl.itemToIdxs x :=
    itemToIdxs_congr (applyOps (fl.Add x rnd) ops) fl hn' hf' x
  exact Contains_of_present _ x _ _ _ (htq.trans ht) hfinal

def c1fl : Filter := (NewRaw 2 1 1).getD defaultFilter

theorem c1fl_WF : c1fl.WF := by
  refine ⟨⟨1, by decide⟩, ?_⟩
  show encOK (bucketEncoding.direct ⟨2, 1⟩) 2
  exact ⟨rfl, by norm_num, by norm_num, by norm_num, by norm_num, by norm_num⟩

/-- Witness for C1 at a concrete filter, item and operation list. -/
theorem C1_no_false_negatives_witness :
    (c1fl.WF ∧ c1fl.overflowed = false ∧ (c1fl.Add [0] []).overflowed = false) ∧
    (applyOps (c1fl.Add [0] []) [Op.query [1]]).Contains [0] = Result.Maybe :=
  ⟨⟨c1fl_WF, rfl, by decide⟩,
    C1_no_false_negatives c1fl [0] [] [Op.query [1]] c1fl_WF rfl (by decide)
      (fun op hop => by
        rcases List.mem_singleton.mp hop with h
        subst h
        exact trivial)⟩

/-- C2: for every legal bucket and both encoding strategies (direct with any
legal `f`, `b`; packed with `b = 4`, `f ≥ 4`), `decode (encode bucket)` holds
the same multiset of slot values as `bucket`. -/
theorem C2_decode_encode_multiset (enc : bucketEncoding) (fw : Nat)
    (henc : encOK enc fw) (bk : bucket) (hleg : legalB fw enc.cap bk) :
    (enc.decode (enc.encode bk)).content = bk.content :=
  roundtrip_content enc fw henc bk hleg

/-- Witness for C2 at the packed strategy with `f = 5` and a concrete full
bucket holding a duplicated maximal-nibble entry. -/
theorem C2_decode_encode_multiset_witness :
    (encOK (.packed ⟨5⟩) 5 ∧
      legalB 5 (bucketEncoding.cap (.packed ⟨5⟩)) ⟨[17, 3, 30, 17, 0, 0, 0, 0], 4⟩) ∧
    ((bucketEncoding.packed ⟨5⟩).decode ((bucketEncoding.packed ⟨5⟩).encode
      ⟨[17, 3, 30, 17, 0, 0, 0, 0], 4⟩)).content
      = (⟨[17, 3, 30, 17, 0, 0, 0, 0], 4⟩ : bucket).content :=
  ⟨⟨⟨rfl, by norm_num, by norm_num⟩, ⟨rfl, rfl, by decide⟩⟩,
    C2_decode_encode_multiset (.packed ⟨5⟩) 5 ⟨rfl, by norm_num, by norm_num⟩
      ⟨[17, 3, 30, 17, 0, 0, 0, 0], 4⟩ ⟨rfl, rfl, by decide⟩⟩

/-- C3: the `overflowed` flag is one-way — no sequence of `Add`, `Delete` or
`Contains` operations ever turns it back off, and once it is set every
`Contains` call answers `Maybe` whatever its argument. -/
theorem C3_overflow_one_way (fl : Filter) (ops : List Op) (x : List Nat)
    (h : fl.Overflowed = true) :
    (applyOps fl ops).Overflowed = true ∧ (applyOps fl ops).Contains x = Result.Maybe := by
  have hov : (applyOps fl ops).overflowed = true := applyOps_overflow_sticky fl ops h
  refine ⟨hov, ?_⟩
  unfold Filter.Contains
  rw [if_pos hov]

def c3fl : Filter :=
  { inner := ⟨[0, 0], 2⟩, bucketEncoding := .direct ⟨2, 1⟩, count := 3, overflowed := true,
    f := 2 }

/-- Witness for C3 at a concrete overflowed filter and operation sequence. -/
theorem C3_overflow_one_way_witness :
    c3fl.Overflowed = true ∧
    ((applyOps c3fl [Op.add [1] [], Op.del [2], Op.query [3]]).Overflowed = true ∧
      (applyOps c3fl [Op.add [1] [], Op.del [2], Op.query [3]]).Contains [0]
        = Result.Maybe) :=
  ⟨rfl, C3_overflow_one_way c3fl [Op.add [1] [], Op.del [2], Op.query [3]] [0] rfl⟩

/-- C4 (code evaluated at the failing input): `bucket.delete` has no early
return, so deleting fingerprint `5` from a bucket holding it twice clears
both matching slots instead of exactly one — afterwards the bucket no longer
contains the fingerprint at all, contradicting the claim (and the function's
own comment, "Deletes one instance"). -/
theorem C4_delete_clears_all_copies :
    (⟨[5, 5, 0, 0, 0, 0, 0, 0], 4⟩ : bucket).containsF 5 = true ∧
    (bucket.delete ⟨[5, 5, 0, 0, 0, 0, 0, 0], 4⟩ 5).entries = [0, 0, 0, 0, 0, 0, 0, 0] ∧
    (bucket.delete ⟨[5, 5, 0, 0, 0, 0, 0, 0], 4⟩ 5).containsF 5 = false := by
  decide

/-- C5 (code evaluated at the failing input): `NewRaw` only rejects
`f*b > 64`, so it accepts `f = 16`, `b = 4` with `f*b = 64`, although its own
doc comment (and the spec) require `f * b` to be less than 64. -/
theorem C5_accepts_f_times_b_64 :
    (NewRaw 16 4 8).isSome = true ∧ 64 ≤ 16 * 4 := by
  decide

def c6fl : Filter :=
  { inner := ⟨[0, 0], 12⟩, bucketEncoding := .packed ⟨4⟩, count := 0, overflowed := false,
    f := 4 }

/-- C6 counterexample: for `f = 4` and hash `5`, the first nonzero value
among the non-overlapping 4-bit windows of the hash (scanned from the most
significant end, as the claim describes) is `5` — the bottom window — but the
code returns the default `1`, because its loop stops before the window at
shift 0. -/
theorem C6_counterexample :
    c6fl.hashToFingerprint 5 = 1 ∧ specFingerprintC6 4 5 = 5 ∧ (1 : Nat) ≠ 5 := by
  decide

/-- C6 (amended): the fingerprint equals the first nonzero value among the
`f`-bit windows of the hash at strictly positive shifts `64 - f*m > 0` — the
window touching bit 0 is never examined — defaulting to `1` when all examined
windows are zero; and it always lies in `[1, 2^f - 1]`. -/
theorem C6_fingerprint_characterization (fl : Filter) (hash : Nat)
    (h2 : 2 ≤ fl.f) (h16 : fl.f ≤ 16) :
    fl.hashToFingerprint hash
      = ((codeWindows fl.f hash).find? (fun w => w != 0)).getD 1 ∧
    1 ≤ fl.hashToFingerprint hash ∧ fl.hashToFingerprint hash ≤ 2 ^ fl.f - 1 := by
  have hr := hashToFingerprint_range fl (by omega) hash
  refine ⟨?_, hr.1, Nat.le_pred_of_lt hr.2⟩
  unfold Filter.hashToFingerprint codeWindows
  have hdiv : 63 / fl.f ≤ 31 := by
    have h31 : 63 / fl.f ≤ 63 / 2 := Nat.div_le_div_left h2 (by norm_num)
    norm_num at h31
    exact h31
  have hfuel : 63 / fl.f + 1 ≤ 1 + 32 := by
    calc 63 / fl.f + 1 ≤ 31 + 1 := Nat.add_le_add_right hdiv 1
      _ ≤ 1 + 32 := by norm_num
  have h := fingerprintLoop_eq_windows fl.f hash h2 32 1 (by norm_num) hfuel
  rw [Nat.mul_one, Nat.add_sub_cancel] at h
  rw [h]

/-- Witness for the amended C6 at `f = 4` and a hash with only the top window
set. -/
theorem C6_fingerprint_characterization_witness :
    (2 ≤ c6fl.f ∧ c6fl.f ≤ 16) ∧
    (c6fl.hashToFingerprint 1152921504606846976
        = ((codeWindows c6fl.f 1152921504606846976).find? (fun w => w != 0)).getD 1 ∧
      1 ≤ c6fl.hashToFingerprint 1152921504606846976 ∧
      c6fl.hashToFingerprint 1152921504606846976 ≤ 2 ^ c6fl.f - 1) :=
  ⟨⟨by decide, by decide⟩,
    C6_fingerprint_characterization c6fl 1152921504606846976 (by decide) (by decide)⟩

/-- C7: on a filter whose bucket count is a power of two (as `NewRaw` always
arranges), the candidate-index map is an involution: for every fingerprint
`g` and bucket index `i`, `otherIdx g (otherIdx g i) = i`. -/
theorem C7_otherIdx_involution (fl : Filter) (k : Nat) (hk : fl.nBuckets = 2 ^ k)
    (g i : Nat) (hi : i < fl.nBuckets) :
    fl.otherIdx g (fl.otherIdx g i) = i :=
  otherIdx_involution fl k hk g i hi

/-- Witness for C7 at a concrete two-bucket filter. -/
theorem C7_otherIdx_involution_witness :
    (c1fl.nBuckets = 2 ^ 1 ∧ 1 < c1fl.nBuckets) ∧
    c1fl.otherIdx 3 (c1fl.otherIdx 3 1) = 1 :=
  ⟨⟨by decide, by decide⟩, C7_otherIdx_involution c1fl 1 (by decide) 3 1 (by decide)⟩

def c8Filter : Filter := (NewRaw 4 4 8).getD defaultFilter

def c8After : Filter :=
  ((((((c8Filter.Add [0] []).Add [1] []).Add [2] []).Add [3] []).Add [4] []).Add [5] []).Add
    [6] []

/-- C8 counterexample: after `ConstructRaw(f=4, b=4, numBuckets=8)` the store
has 16 buckets (the constructor rounds 8 up to `1 <<< bits.Len64 8 = 16`),
and `SizeBytes()` returns `12 * 16 = 192`, the word width times the slot
count — not the claim's "12 bits times 8 buckets expressed in bytes" (12),
nor that product left in bits (96). -/
theorem C8_counterexample :
    c8Filter.nBuckets = 16 ∧ c8Filter.SizeBytes = 192 ∧ (192 : Nat) ≠ 12 ∧
      (192 : Nat) ≠ 96 := by
  decide

/-- C8 (amended): after `ConstructRaw(f=4, b=4, numBuckets=8)` and inserting
the 7 distinct items `[0] .. [6]`, `Contains` answers `Maybe` for all seven,
the filter has not overflowed, and `SizeBytes()` equals the encoded-bucket
width (12, for the packed strategy at `f=4`) times the 16 buckets the
constructor actually allocates (numBuckets is rounded up to the next power of
two above 8): the function returns this product without converting it to
bytes. -/
theorem C8_seven_items_and_size :
    c8After.Contains [0] = Result.Maybe ∧ c8After.Contains [1] = Result.Maybe ∧
    c8After.Contains [2] = Result.Maybe ∧ c8After.Contains [3] = Result.Maybe ∧
    c8After.Contains [4] = Result.Maybe ∧ c8After.Contains [5] = Result.Maybe ∧
    c8After.Contains [6] = Result.Maybe ∧ c8After.Overflowed = false ∧
    c8After.SizeBytes = 12 * 16 := by
  decide

def c9fl : Filter := (NewRaw 2 1 1).getD defaultFilter

def c10fl : Filter := (NewRaw 2 1 1).getD defaultFilter

/-- C9 counterexample: `Count()` is not monotonically non-decreasing — on a
fresh filter, `Add` then `Delete` of the same item brings the counter from 1
back to 0, a strictly smaller value than was observable before the delete. -/
theorem C9_counterexample :
    ((c9fl.Add [0] []).Delete [0]).1.Count < (c9fl.Add [0] []).Count := by
  decide

/-- C9 (amended): `count` is net bookkeeping, not monotone: every `Add`
increments `Count()` by exactly one and every `Delete` decrements it by
exactly one (`Contains` reads no state and mutates nothing), so the counter
decreases at each delete. -/
theorem C9_count_is_net_adds_minus_deletes (fl : Filter) (x rnd y : List Nat) :
    (fl.Add x rnd).Count = fl.Count + 1 ∧ (fl.Delete y).1.Count = fl.Count - 1 :=
  ⟨(Add_params fl x rnd).2.2.2, (Delete_params fl y).2.2.2.1⟩

/-- C10: when `Delete` is called on a non-overflowed filter and the item's
fingerprint is in neither candidate bucket, the call signals `ItemNotFound`
(the Go panic) only after already decrementing `count`: the resulting state
is exactly the original filter with `count - 1` — the bucket store is
untouched but `Count()` has changed. -/
theorem C10_failed_delete_decrements_count (fl : Filter) (x : List Nat) (tf i1 i2 : Nat)
    (hov : fl.overflowed = false) (ht : fl.itemToIdxs x = (tf, i1, i2))
    (h1 : (fl.getBucket i1).containsF tf = false)
    (h2 : (fl.getBucket i2).containsF tf = false) :
    fl.Delete x = ({ fl with count := fl.count - 1 }, true) ∧
    (fl.Delete x).1.Count = fl.Count - 1 ∧ (fl.Delete x).1.inner = fl.inner := by
  have e1 : (fl.itemToIdxs x).1 = tf := by rw [ht]
  have e2 : (fl.itemToIdxs x).2.1 = i1 := by rw [ht]
  have e3 : (fl.itemToIdxs x).2.2 = i2 := by rw [ht]
  have hmain : fl.Delete x = ({ fl with count := fl.count - 1 }, true) := by
    simp only [Filter.Delete]
    set fl1 : Filter := { fl with count := fl.count - 1 } with hfl1
    have hov1 : fl1.overflowed = false := hov
    rw [if_neg (by rw [Bool.not_eq_true]; exact hov1)]
    have e1' : (fl1.itemToIdxs x).1 = tf := e1
    have e2' : (fl1.itemToIdxs x).2.1 = i1 := e2
    have e3' : (fl1.itemToIdxs x).2.2 = i2 := e3
    rw [e1', e2', e3']
    have hc1 : (fl1.getBucket i1).containsF tf = false := h1
    have hc2 : (fl1.getBucket i2).containsF tf = false := h2
    rw [if_neg (by rw [Bool.not_eq_true]; exact hc1),
      if_neg (by rw [Bool.not_eq_true]; exact hc2)]
  exact ⟨hmain, by rw [hmain]; rfl, by rw [hmain]⟩

theorem C10_failed_delete_decrements_count_witness :
    c10fl.overflowed = false ∧ c10fl.itemToIdxs [0] = (2, 1, 0) ∧
    (c10fl.getBucket 1).containsF 2 = false ∧
    (c10fl.getBucket 0).containsF 2 = false ∧
    c10fl.Delete [0] = ({ c10fl with count := c10fl.count - 1 }, true) :=
  ⟨by decide, by decide, by decide, by decide,
    (C10_failed_delete_decrements_count c10fl [0] 2 1 0 (by decide) (by decide)
      (by decide) (by decide)).1⟩

end Cuckoo
